import Mathlib

/-!
# Verification of the sovereign-engine fair-use inference scheduler

Shallow embedding in Lean 4 of the scheduler subsystems of the `proxy` crate:
the concurrency gate (`src/scheduler/gate.rs`), the priority queue
(`src/scheduler/queue.rs`), the fairness calculator (`src/scheduler/fairness.rs`),
the settings store (`src/scheduler/settings.rs`), the model resolver
(`src/scheduler/resolver.rs`), the reservation tick (`src/scheduler/reservation.rs`)
and the admission prefix of the inference handler (`src/api/openai.rs`).

Modelling conventions:
* Rust `u32`/`u64` counters are `Nat`; the gate increments only strictly below
  `max_slots` and decrements with `saturating_sub`, so no wrap-around is reachable
  and `Nat` is faithful.
* `HashMap<String, _>` becomes an association list with unique keys; the
  operations below preserve key uniqueness exactly as map insert/remove do.
* SQLite timestamp strings of the fixed format `%Y-%m-%dT%H:%M:%S` compare
  lexicographically, which on equal-length strings coincides with chronological
  order; times are therefore modelled as `Nat`.
* The `f64` priority values are compared by the source with
  `partial_cmp(..).unwrap_or(Equal)`; on the non-NaN values the calculator
  produces, this is a linear order, modelled by `Int` in the queue and by `ℝ`
  (with `ℚ`-valued settings) in the fairness calculator.
* `tokio` one-shot wakers and the broadcast channel carry no data relevant to
  the claims below and are omitted from the queue-element structure.
-/

/- ### Concurrency gate (`src/scheduler/gate.rs`) -/

/-- Per-model concurrency state, `GateState` in `gate.rs`: `max_slots` is fixed
at registration, `in_flight` counts currently held slots. -/
structure GateState where
  maxSlots : Nat
  inFlight : Nat
deriving Repr, DecidableEq

/-- The gate's `HashMap<String, GateState>` modelled as an association list. -/
abbrev Gate := List (String × GateState)

/-- Map lookup, first entry with the given key. -/
def gateLookup (g : Gate) (m : String) : Option GateState :=
  (g.find? (fun e => e.1 == m)).map (fun e => e.2)

/-- `ConcurrencyGate::register`: `HashMap::insert` unconditionally replaces any
existing entry with a fresh one whose `in_flight` is 0. -/
def gateRegister (g : Gate) (m : String) (k : Nat) : Gate :=
  if g.any (fun e => e.1 == m) then
    g.map (fun e => if e.1 == m then (e.1, GateState.mk k 0) else e)
  else
    g ++ [(m, GateState.mk k 0)]

/-- `ConcurrencyGate::unregister`: `HashMap::remove`. -/
def gateUnregister (g : Gate) (m : String) : Gate :=
  g.filter (fun e => !(e.1 == m))

/-- `ConcurrencyGate::try_acquire`: increment `in_flight` when strictly below
`max_slots`; an unregistered model is admitted without counting (fail-open). -/
def gateTryAcquire (g : Gate) (m : String) : Bool × Gate :=
  match gateLookup g m with
  | some gs =>
      if gs.inFlight < gs.maxSlots then
        (true, g.map (fun e => if e.1 == m then (e.1, { gs with inFlight := gs.inFlight + 1 }) else e))
      else (false, g)
  | none => (true, g)

/-- The counter half of `ConcurrencyGate::release_and_wake`:
`in_flight = in_flight.saturating_sub(1)` (`Nat` subtraction saturates).
The wake half acts only on the queue and is modelled with the queue below. -/
def gateReleaseCounter (g : Gate) (m : String) : Gate :=
  match gateLookup g m with
  | some gs => g.map (fun e => if e.1 == m then (e.1, { gs with inFlight := gs.inFlight - 1 }) else e)
  | none => g

/-- The public mutating operations of `ConcurrencyGate`. -/
inductive GateOp where
  | register (m : String) (k : Nat)
  | unregister (m : String)
  | tryAcquire (m : String)
  | releaseAndWake (m : String)
deriving Repr, DecidableEq

/-- Effect of one gate operation on the gate state. -/
def applyGateOp (g : Gate) : GateOp → Gate
  | .register m k => gateRegister g m k
  | .unregister m => gateUnregister g m
  | .tryAcquire m => (gateTryAcquire g m).2
  | .releaseAndWake m => gateReleaseCounter g m

/-- Gate invariant: every registered model has `in_flight ≤ max_slots`
(`0 ≤ in_flight` is inherent to `Nat`). -/
def GateInv (g : Gate) : Prop := ∀ e ∈ g, e.2.inFlight ≤ e.2.maxSlots

lemma gateLookup_mem {g : Gate} {m : String} {gs : GateState}
    (h : gateLookup g m = some gs) : ∃ e ∈ g, e.2 = gs := by
  unfold gateLookup at h
  cases hf : g.find? (fun e => e.1 == m) with
  | none => simp [hf] at h
  | some e =>
      refine ⟨e, List.mem_of_find?_eq_some hf, ?_⟩
      simp [hf] at h
      exact h

lemma gateLookup_map_set {g : Gate} {m : String} (s : GateState) :
    gateLookup (g.map (fun e => if e.1 == m then (e.1, s) else e)) m
      = (gateLookup g m).map (fun _ => s) := by
  induction g with
  | nil => rfl
  | cons e rest ih =>
      by_cases h : e.1 = m
      · simp [gateLookup, List.find?, h]
      · have hb : (e.1 == m) = false := by simp [h]
        simp only [List.map_cons, hb, if_neg, Bool.false_eq_true, not_false_iff]
        simp only [gateLookup, List.find?, hb] at ih ⊢
        exact ih

lemma gateLookup_append_fresh {g : Gate} {m : String} (s : GateState)
    (h : g.any (fun e => e.1 == m) = false) :
    gateLookup (g ++ [(m, s)]) m = some s := by
  induction g with
  | nil => simp [gateLookup]
  | cons e rest ih =>
      simp only [List.any_cons, Bool.or_eq_false_iff] at h
      simp only [List.cons_append, gateLookup, List.find?, h.1]
      exact ih h.2

lemma gateLookup_register (g : Gate) (m : String) (k : Nat) :
    gateLookup (gateRegister g m k) m = some ⟨k, 0⟩ := by
  unfold gateRegister
  by_cases h : g.any (fun e => e.1 == m) = true
  · rw [if_pos h, gateLookup_map_set]
    rcases ha : gateLookup g m with _ | gs
    · exfalso
      simp only [List.any_eq_true] at h
      obtain ⟨e, he, hb⟩ := h
      unfold gateLookup at ha
      have : g.find? (fun e => e.1 == m) ≠ none := by
        intro hn
        have := List.find?_eq_none.mp hn e he
        simp [hb] at this
      cases hf : g.find? (fun e => e.1 == m) with
      | none => exact this hf
      | some e' => simp [hf] at ha
    · rfl
  · rw [if_neg h]
    exact gateLookup_append_fresh _ (Bool.eq_false_iff.mpr h)

lemma gateInv_of_map_update {g : Gate} {m : String} {s : GateState}
    (hg : GateInv g) (hs : s.inFlight ≤ s.maxSlots) :
    GateInv (g.map (fun e => if e.1 == m then (e.1, s) else e)) := by
  intro e' he'
  obtain ⟨e, he, rfl⟩ := List.mem_map.mp he'
  by_cases h : (e.1 == m) = true
  · simp only [h, if_pos]
    exact hs
  · simp only [h, Bool.false_eq_true, if_neg, not_false_iff]
    exact hg e he

lemma gateInv_register {g : Gate} (m : String) (k : Nat) (hg : GateInv g) :
    GateInv (gateRegister g m k) := by
  unfold gateRegister
  by_cases h : g.any (fun e => e.1 == m) = true
  · rw [if_pos h]
    exact gateInv_of_map_update hg (Nat.zero_le _)
  · rw [if_neg h]
    intro e he
    rcases List.mem_append.mp he with h1 | h2
    · exact hg e h1
    · simp only [List.mem_singleton] at h2
      subst h2
      exact Nat.zero_le _

lemma gateInv_unregister {g : Gate} (m : String) (hg : GateInv g) :
    GateInv (gateUnregister g m) := by
  intro e he
  exact hg e (List.mem_of_mem_filter he)

lemma gateInv_tryAcquire {g : Gate} (m : String) (hg : GateInv g) :
    GateInv (gateTryAcquire g m).2 := by
  unfold gateTryAcquire
  cases hl : gateLookup g m with
  | none => exact hg
  | some gs =>
      by_cases hlt : gs.inFlight < gs.maxSlots
      · simp only [hlt, if_pos]
        exact gateInv_of_map_update hg (by show gs.inFlight + 1 ≤ gs.maxSlots; omega)
      · simp only [hlt, if_neg, not_false_iff]
        exact hg

lemma gateInv_releaseCounter {g : Gate} (m : String) (hg : GateInv g) :
    GateInv (gateReleaseCounter g m) := by
  unfold gateReleaseCounter
  cases hl : gateLookup g m with
  | none => exact hg
  | some gs =>
      obtain ⟨e, he, hes⟩ := gateLookup_mem hl
      have hb : gs.inFlight ≤ gs.maxSlots := hes ▸ hg e he
      exact gateInv_of_map_update hg (by show gs.inFlight - 1 ≤ gs.maxSlots; omega)

lemma gateInv_applyGateOp {g : Gate} (op : GateOp) (hg : GateInv g) :
    GateInv (applyGateOp g op) := by
  cases op with
  | register m k => exact gateInv_register m k hg
  | unregister m => exact gateInv_unregister m hg
  | tryAcquire m => exact gateInv_tryAcquire m hg
  | releaseAndWake m => exact gateInv_releaseCounter m hg

lemma gateInv_foldl (ops : List GateOp) :
    ∀ g : Gate, GateInv g → GateInv (ops.foldl applyGateOp g) := by
  induction ops with
  | nil => intro g hg; exact hg
  | cons op rest ih =>
      intro g hg
      exact ih _ (gateInv_applyGateOp op hg)

/-- C5: for every model registered in the gate, `0 ≤ in_flight ≤ max_slots` holds
after every sequence of gate operations starting from the empty gate; registration
sets `in_flight = 0`, `try_acquire` increments exactly when `in_flight < max_slots`
(and fails leaving the gate unchanged otherwise), and release decrements with
saturation at zero. -/
theorem gate_in_flight_bounded :
    (∀ ops : List GateOp, GateInv (ops.foldl applyGateOp ([] : Gate)))
    ∧ (∀ (g : Gate) (m : String) (k : Nat),
        gateLookup (gateRegister g m k) m = some ⟨k, 0⟩)
    ∧ (∀ (g : Gate) (m : String) (gs : GateState), gateLookup g m = some gs →
        (gs.inFlight < gs.maxSlots →
          (gateTryAcquire g m).1 = true ∧
          gateLookup (gateTryAcquire g m).2 m = some ⟨gs.maxSlots, gs.inFlight + 1⟩)
        ∧ (¬ gs.inFlight < gs.maxSlots → gateTryAcquire g m = (false, g)))
    ∧ (∀ (g : Gate) (m : String) (gs : GateState), gateLookup g m = some gs →
        gateLookup (gateReleaseCounter g m) m = some ⟨gs.maxSlots, gs.inFlight - 1⟩) := by
  refine ⟨fun ops => gateInv_foldl ops [] (by intro e he; cases he), ?_, ?_, ?_⟩
  · intro g m k
    exact gateLookup_register g m k
  · intro g m gs hl
    constructor
    · intro hlt
      unfold gateTryAcquire
      rw [hl]
      simp only [hlt, if_pos, true_and]
      rw [gateLookup_map_set, hl]
      rfl
    · intro hlt
      unfold gateTryAcquire
      rw [hl]
      simp [hlt]
  · intro g m gs hl
    unfold gateReleaseCounter
    rw [hl, gateLookup_map_set, hl]
    rfl

/-- Witness for `gate_in_flight_bounded` at a concrete gate. -/
theorem gate_in_flight_bounded_spot :
    ((gateTryAcquire (gateRegister [] "m1" 2) "m1").1 = true ∧
      gateLookup (gateTryAcquire (gateRegister [] "m1" 2) "m1").2 "m1" = some ⟨2, 1⟩) :=
  (gate_in_flight_bounded.2.2.1 (gateRegister [] "m1" 2) "m1" ⟨2, 0⟩
      (by decide)).1 (by decide)

/-- Iterated `try_acquire`: `n` successive fast-path attempts; the flag is true
iff every attempt succeeded. -/
def gateTryAcquireN (g : Gate) (m : String) : Nat → Bool × Gate
  | 0 => (true, g)
  | n + 1 =>
      let s1 := gateTryAcquire g m
      let s2 := gateTryAcquireN s1.2 m n
      (s1.1 && s2.1, s2.2)

lemma gateTryAcquireN_spec (m : String) :
    ∀ (n : Nat) (g : Gate) (k i : Nat), gateLookup g m = some ⟨k, i⟩ → i + n ≤ k →
      (gateTryAcquireN g m n).1 = true ∧
      gateLookup (gateTryAcquireN g m n).2 m = some ⟨k, i + n⟩ := by
  intro n
  induction n with
  | zero => intro g k i hl _; exact ⟨rfl, hl⟩
  | succ n ih =>
      intro g k i hl hle
      have hlt : i < k := by omega
      have hstep := (gate_in_flight_bounded.2.2.1 g m ⟨k, i⟩ hl).1 hlt
      have hrec := ih (gateTryAcquire g m).2 k (i + 1) hstep.2 (by omega)
      have harith : i + 1 + n = i + (n + 1) := by omega
      rw [harith] at hrec
      constructor
      · show ((gateTryAcquire g m).1 && (gateTryAcquireN (gateTryAcquire g m).2 m n).1) = true
        rw [hstep.1, hrec.1]
        rfl
      · show gateLookup (gateTryAcquireN (gateTryAcquire g m).2 m n).2 m = some ⟨k, i + (n + 1)⟩
        exact hrec.2

/-- C10: re-registering an already-registered model unconditionally replaces its
entry with a fresh one whose `in_flight` is 0 even while slots are held; afterwards
up to `k` new acquisitions succeed regardless of outstanding earlier slots, and a
later release decrements the new counter saturating at zero rather than failing. -/
theorem gate_reregister_resets :
    (∀ (g : Gate) (m : String) (k : Nat) (old : GateState), gateLookup g m = some old →
        gateLookup (gateRegister g m k) m = some ⟨k, 0⟩)
    ∧ (∀ (g : Gate) (m : String) (k n : Nat), n ≤ k →
        (gateTryAcquireN (gateRegister g m k) m n).1 = true ∧
        gateLookup (gateTryAcquireN (gateRegister g m k) m n).2 m = some ⟨k, n⟩)
    ∧ (∀ (g : Gate) (m : String) (gs : GateState), gateLookup g m = some gs →
        gateLookup (gateReleaseCounter g m) m = some ⟨gs.maxSlots, gs.inFlight - 1⟩
        ∧ (gs.inFlight = 0 →
            gateLookup (gateReleaseCounter g m) m = some ⟨gs.maxSlots, 0⟩)) := by
  refine ⟨?_, ?_, ?_⟩
  · intro g m k _ _
    exact gateLookup_register g m k
  · intro g m k n hn
    have := gateTryAcquireN_spec m n (gateRegister g m k) k 0 (gateLookup_register g m k)
      (by omega)
    simpa using this
  · intro g m gs hl
    have hr := gate_in_flight_bounded.2.2.2 g m gs hl
    exact ⟨hr, fun h0 => by rw [hr, h0]⟩

/-- Witness for `gate_reregister_resets`: a gate with two outstanding slots on
`m1` is re-registered with 3 slots; 3 fresh acquisitions then succeed and a
release decrements the new counter. -/
theorem gate_reregister_resets_spot :
    (gateLookup (gateRegister [("m1", ⟨2, 2⟩)] "m1" 3) "m1" = some ⟨3, 0⟩)
    ∧ ((gateTryAcquireN (gateRegister [("m1", ⟨2, 2⟩)] "m1" 3) "m1" 3).1 = true ∧
        gateLookup (gateTryAcquireN (gateRegister [("m1", ⟨2, 2⟩)] "m1" 3) "m1" 3).2 "m1"
          = some ⟨3, 3⟩)
    ∧ gateLookup (gateReleaseCounter [("m1", ⟨3, 0⟩)] "m1") "m1" = some ⟨3, 0⟩ :=
  ⟨gate_reregister_resets.1 [("m1", ⟨2, 2⟩)] "m1" 3 ⟨2, 2⟩ (by decide),
   gate_reregister_resets.2.1 [("m1", ⟨2, 2⟩)] "m1" 3 3 (by decide),
   (gate_reregister_resets.2.2 [("m1", ⟨3, 0⟩)] "m1" ⟨3, 0⟩ (by decide)).2 rfl⟩

/- ### Fairness calculator (`src/scheduler/fairness.rs`) and settings record -/

/-- `FairnessSettings` from `scheduler/settings.rs`. The four `f64` knobs are
modelled as `ℚ` (decimal settings values are exact rationals); `window_minutes`
is `i64` and `queue_timeout_secs` is `u64`. -/
structure FairnessSettings where
  basePriority : ℚ
  waitWeight : ℚ
  usageWeight : ℚ
  usageScale : ℚ
  windowMinutes : Int
  queueTimeoutSecs : Nat
deriving Repr, DecidableEq

/-- `FairnessSettings::default()`: base 100, wait weight 1, usage weight 10,
usage scale 1000, window 60 minutes, queue timeout 30 seconds. -/
def defaultSettings : FairnessSettings :=
  { basePriority := 100, waitWeight := 1, usageWeight := 10,
    usageScale := 1000, windowMinutes := 60, queueTimeoutSecs := 30 }

/-- `calculate_priority` from `scheduler/fairness.rs`, with `f64` arithmetic
modelled over `ℝ`: `wait_time_bonus = wait_weight * wait_seconds`,
`usage_penalty = usage_weight * ln(1 + recent_tokens / usage_scale)`,
result `base_priority + wait_time_bonus - usage_penalty`. -/
noncomputable def calculate_priority (s : FairnessSettings) (waitSeconds : ℝ) (recentTokens : Int) : ℝ :=
  let waitTimeBonus := (s.waitWeight : ℝ) * waitSeconds
  let usagePenalty :=
    (s.usageWeight : ℝ) * Real.log (1 + (recentTokens : ℝ) / (s.usageScale : ℝ))
  (s.basePriority : ℝ) + waitTimeBonus - usagePenalty

/-- Modelled from the spec: the priority formula exactly as §4.1 writes it,
`priority = S.base + S.wait_weight * w − S.usage_weight * ln(1 + u / S.usage_scale)`. -/
noncomputable def prioritySpecFormula (s : FairnessSettings) (w : ℝ) (u : Int) : ℝ :=
  (s.basePriority : ℝ) + (s.waitWeight : ℝ) * w
    - (s.usageWeight : ℝ) * Real.log (1 + (u : ℝ) / (s.usageScale : ℝ))

/-- C7: `calculate_priority` computes exactly the spec formula for all
nonnegative wait and usage, it is total on those inputs (it is a total function
on all of `ℝ × ℤ`), and at zero wait and zero usage it returns exactly
`base_priority`. -/
theorem calculate_priority_formula :
    (∀ (s : FairnessSettings) (w : ℝ) (u : Int), 0 ≤ w → 0 ≤ u →
        calculate_priority s w u = prioritySpecFormula s w u)
    ∧ (∀ s : FairnessSettings, calculate_priority s 0 0 = (s.basePriority : ℝ)) := by
  constructor
  · intro s w u _ _
    rfl
  · intro s
    unfold calculate_priority
    simp

/-- Witness for `calculate_priority_formula` at the default settings. -/
theorem calculate_priority_formula_spot :
    calculate_priority defaultSettings 2 5 = prioritySpecFormula defaultSettings 2 5 :=
  calculate_priority_formula.1 defaultSettings 2 5 (by norm_num) (by decide)

/-- C8: with `usage_scale > 0`, the priority is strictly decreasing in the
recent-token count at fixed wait whenever `usage_weight > 0`, and strictly
increasing in the wait at fixed usage whenever `wait_weight > 0`. -/
theorem calculate_priority_strict_mono :
    ∀ s : FairnessSettings, 0 < s.usageScale →
      ((0 < s.usageWeight → ∀ (w : ℝ) (u1 u2 : Int), 0 ≤ u1 → u1 < u2 →
          calculate_priority s w u2 < calculate_priority s w u1)
      ∧ (0 < s.waitWeight → ∀ (u : Int) (w1 w2 : ℝ), w1 < w2 →
          calculate_priority s w1 u < calculate_priority s w2 u)) := by
  intro s hscale
  have hscaleR : (0 : ℝ) < (s.usageScale : ℝ) := by exact_mod_cast hscale
  constructor
  · intro hw w u1 u2 hu1 hlt
    have hwR : (0 : ℝ) < (s.usageWeight : ℝ) := by exact_mod_cast hw
    have hu1R : (0 : ℝ) ≤ (u1 : ℝ) := by exact_mod_cast hu1
    have hltR : (u1 : ℝ) < (u2 : ℝ) := by exact_mod_cast hlt
    have hdiv : (u1 : ℝ) / (s.usageScale : ℝ) < (u2 : ℝ) / (s.usageScale : ℝ) :=
      div_lt_div_of_pos_right hltR hscaleR
    have hpos : (0 : ℝ) < 1 + (u1 : ℝ) / (s.usageScale : ℝ) := by
      have : (0 : ℝ) ≤ (u1 : ℝ) / (s.usageScale : ℝ) := div_nonneg hu1R hscaleR.le
      linarith
    have hlog : Real.log (1 + (u1 : ℝ) / (s.usageScale : ℝ))
        < Real.log (1 + (u2 : ℝ) / (s.usageScale : ℝ)) :=
      Real.log_lt_log hpos (by linarith)
    have := mul_lt_mul_of_pos_left hlog hwR
    unfold calculate_priority
    dsimp only
    linarith
  · intro hw u w1 w2 hlt
    have hwR : (0 : ℝ) < (s.waitWeight : ℝ) := by exact_mod_cast hw
    have := mul_lt_mul_of_pos_left hlt hwR
    unfold calculate_priority
    dsimp only
    linarith

/-- Witness for `calculate_priority_strict_mono` at the default settings. -/
theorem calculate_priority_strict_mono_spot :
    calculate_priority defaultSettings 0 5 < calculate_priority defaultSettings 0 0
    ∧ calculate_priority defaultSettings 0 0 < calculate_priority defaultSettings 1 0 :=
  ⟨(calculate_priority_strict_mono defaultSettings (by norm_num [defaultSettings])).1
      (by norm_num [defaultSettings]) 0 0 5 (by decide) (by decide),
   (calculate_priority_strict_mono defaultSettings (by norm_num [defaultSettings])).2
      (by norm_num [defaultSettings]) 0 0 1 (by norm_num)⟩

/- ### Priority queue (`src/scheduler/queue.rs`) -/

/-- `QueuedRequest` from `queue.rs`; the `oneshot` waker is omitted (pure
signalling, carries no data) and `enqueued_at` is a `Nat` timestamp. -/
structure QueuedRequest where
  requestId : String
  userId : String
  queueKey : String
  priority : Int
  enqueuedAt : Nat
deriving Repr, DecidableEq

/-- The queue's `HashMap<String, VecDeque<QueuedRequest>>` as an association
list; within each key the list order is arrival order (`push_back`). -/
abbrev RQueue := List (String × List QueuedRequest)

/-- Map lookup for a queue key. -/
def rqGet (q : RQueue) (key : String) : Option (List QueuedRequest) :=
  (q.find? (fun e => e.1 == key)).map (fun e => e.2)

/-- Replace the line stored under `key` (used by dequeue's in-place removal). -/
def rqSet (q : RQueue) (key : String) (l : List QueuedRequest) : RQueue :=
  q.map (fun e => if e.1 == key then (e.1, l) else e)

/-- `RequestQueue::enqueue`: `entry(key).or_default().push_back(request)`. -/
def enqueue (q : RQueue) (r : QueuedRequest) : RQueue :=
  match rqGet q r.queueKey with
  | some l => rqSet q r.queueKey (l ++ [r])
  | none => q ++ [(r.queueKey, [r])]

/-- One comparison step of Rust `Iterator::max_by` under
`a.priority.partial_cmp(&b.priority).unwrap_or(Equal)`: the accumulator is kept
only when strictly greater, so among equal maxima the later element wins. -/
def bestStep (b x : Nat × QueuedRequest) : Nat × QueuedRequest :=
  if x.2.priority < b.2.priority then b else x

/-- Tail of the `max_by` fold over the enumerated queue, starting from
accumulator `b` with the next element at index `i`. -/
def bestFrom (b : Nat × QueuedRequest) (i : Nat) : List QueuedRequest → Nat × QueuedRequest
  | [] => b
  | r :: rest => bestFrom (bestStep b (i, r)) (i + 1) rest

/-- `queue.iter().enumerate().max_by(..)` from `RequestQueue::dequeue`. -/
def bestIdx : List QueuedRequest → Option (Nat × QueuedRequest)
  | [] => none
  | r :: rest => some (bestFrom (0, r) 1 rest)

/-- `RequestQueue::dequeue`: find the index of the highest-priority request and
`VecDeque::remove` it; `None` (queue untouched) for an absent or empty key. -/
def dequeue (q : RQueue) (key : String) : Option QueuedRequest × RQueue :=
  match rqGet q key with
  | none => (none, q)
  | some l =>
      match bestIdx l with
      | none => (none, q)
      | some (i, r) => (some r, rqSet q key (l.eraseIdx i))

/-- `ConcurrencyGate::release_and_wake` in full: decrement the counter, then
dequeue the highest-priority waiter for the model (the returned request is the
one whose one-shot waker is signalled). -/
def releaseAndWake (g : Gate) (q : RQueue) (m : String) :
    Gate × Option QueuedRequest × RQueue :=
  let g1 := gateReleaseCounter g m
  let d := dequeue q m
  (g1, d.1, d.2)

lemma bestFrom_spec :
    ∀ (rest : List QueuedRequest) (b : Nat × QueuedRequest) (i : Nat), b.1 < i →
      (bestFrom b i rest = b ∨ ∃ t, ∃ ht : t < rest.length,
          (bestFrom b i rest).1 = i + t ∧ (bestFrom b i rest).2 = rest.get ⟨t, ht⟩)
      ∧ b.2.priority ≤ (bestFrom b i rest).2.priority
      ∧ (∀ t (ht : t < rest.length),
          (rest.get ⟨t, ht⟩).priority ≤ (bestFrom b i rest).2.priority)
      ∧ (∀ t (ht : t < rest.length), (bestFrom b i rest).1 < i + t →
          (rest.get ⟨t, ht⟩).priority < (bestFrom b i rest).2.priority) := by
  intro rest
  induction rest with
  | nil =>
      intro b i hb
      refine ⟨Or.inl rfl, le_refl _, ?_, ?_⟩
      · intro t ht; exact absurd ht (Nat.not_lt_zero t)
      · intro t ht; exact absurd ht (Nat.not_lt_zero t)
  | cons r rest ih =>
      intro b i hb
      have hb' : (bestStep b (i, r)).1 < i + 1 := by
        unfold bestStep
        by_cases hc : r.priority < b.2.priority
        · simp only [hc, if_pos]; omega
        · simp only [hc, if_neg, not_false_iff]; omega
      have IH := ih (bestStep b (i, r)) (i + 1) hb'
      have hrw : bestFrom b i (r :: rest) = bestFrom (bestStep b (i, r)) (i + 1) rest := rfl
      rw [hrw]
      by_cases hc : r.priority < b.2.priority
      · have hbs : bestStep b (i, r) = b := by unfold bestStep; simp [hc]
        rw [hbs] at IH ⊢
        refine ⟨?_, IH.2.1, ?_, ?_⟩
        · rcases IH.1 with h | ⟨t, ht, h1, h2⟩
          · exact Or.inl h
          · refine Or.inr ⟨t + 1, by simpa using Nat.succ_lt_succ ht, ?_, ?_⟩
            · omega
            · exact h2
        · intro t ht
          cases t with
          | zero =>
              show r.priority ≤ _
              exact le_of_lt (lt_of_lt_of_le hc IH.2.1)
          | succ t' =>
              have ht' : t' < rest.length := by simpa using Nat.lt_of_succ_lt_succ ht
              show (rest.get ⟨t', ht'⟩).priority ≤ _
              exact IH.2.2.1 t' ht'
        · intro t ht hidx
          cases t with
          | zero =>
              show r.priority < _
              exact lt_of_lt_of_le hc IH.2.1
          | succ t' =>
              have ht' : t' < rest.length := by simpa using Nat.lt_of_succ_lt_succ ht
              show (rest.get ⟨t', ht'⟩).priority < _
              exact IH.2.2.2 t' ht' (by omega)
      · have hbs : bestStep b (i, r) = (i, r) := by unfold bestStep; simp [hc]
        rw [hbs] at IH ⊢
        have hble : b.2.priority ≤ r.priority := le_of_not_lt hc
        refine ⟨?_, le_trans hble IH.2.1, ?_, ?_⟩
        · rcases IH.1 with h | ⟨t, ht, h1, h2⟩
          · refine Or.inr ⟨0, by simp, ?_, ?_⟩
            · rw [h]; omega
            · rw [h]
              rfl
          · refine Or.inr ⟨t + 1, by simpa using Nat.succ_lt_succ ht, ?_, ?_⟩
            · omega
            · exact h2
        · intro t ht
          cases t with
          | zero =>
              show r.priority ≤ _
              exact IH.2.1
          | succ t' =>
              have ht' : t' < rest.length := by simpa using Nat.lt_of_succ_lt_succ ht
              show (rest.get ⟨t', ht'⟩).priority ≤ _
              exact IH.2.2.1 t' ht'
        · intro t ht hidx
          cases t with
          | zero =>
              exfalso
              rcases IH.1 with h | ⟨t', ht', h1, h2⟩
              · rw [h] at hidx; simp at hidx
              · rw [h1] at hidx; omega
          | succ t' =>
              have ht' : t' < rest.length := by simpa using Nat.lt_of_succ_lt_succ ht
              show (rest.get ⟨t', ht'⟩).priority < _
              exact IH.2.2.2 t' ht' (by omega)

lemma bestIdx_spec (l : List QueuedRequest) (hl : l ≠ []) :
    ∃ i r, bestIdx l = some (i, r) ∧ l.get? i = some r
      ∧ (∀ j x, l.get? j = some x → x.priority ≤ r.priority)
      ∧ (∀ j x, l.get? j = some x → i < j → x.priority < r.priority) := by
  cases l with
  | nil => exact absurd rfl hl
  | cons r0 rest =>
      have hspec := bestFrom_spec rest (0, r0) 1 (by omega)
      refine ⟨(bestFrom (0, r0) 1 rest).1, (bestFrom (0, r0) 1 rest).2, rfl, ?_, ?_, ?_⟩
      · rcases hspec.1 with h | ⟨t, ht, h1, h2⟩
        · rw [h]
          rfl
        · rw [h1, h2]
          have h1t : 1 + t = t + 1 := by omega
          rw [h1t]
          show rest.get? t = some (rest.get ⟨t, ht⟩)
          exact List.get?_eq_get ht
      · intro j x hx
        cases j with
        | zero =>
            have hx0 : x = r0 := by
              have := hx
              simp at this
              exact this.symm
            rw [hx0]
            exact hspec.2.1
        | succ t =>
            have hx' : rest.get? t = some x := hx
            obtain ⟨ht, hxe⟩ := List.get?_eq_some.mp hx'
            rw [← hxe]
            exact hspec.2.2.1 t ht
      · intro j x hx hij
        cases j with
        | zero => omega
        | succ t =>
            have hx' : rest.get? t = some x := hx
            obtain ⟨ht, hxe⟩ := List.get?_eq_some.mp hx'
            rw [← hxe]
            exact hspec.2.2.2 t ht (by omega)

lemma rqGet_rqSet (q : RQueue) (key : String) (l : List QueuedRequest) :
    rqGet (rqSet q key l) key = (rqGet q key).map (fun _ => l) := by
  induction q with
  | nil => rfl
  | cons e rest ih =>
      by_cases h : e.1 = key
      · simp [rqGet, rqSet, List.find?, h]
      · have hb : (e.1 == key) = false := by simp [h]
        simp only [rqSet, List.map_cons, hb, Bool.false_eq_true, if_neg, not_false_iff]
        simp only [rqGet, rqSet, List.find?, hb] at ih ⊢
        exact ih

lemma rqGet_cons (e : String × List QueuedRequest) (rest : RQueue) (k : String) :
    rqGet (e :: rest) k = if e.1 == k then some e.2 else rqGet rest k := by
  by_cases h : (e.1 == k) = true
  · simp [rqGet, List.find?, h]
  · have hb : (e.1 == k) = false := by simpa using h
    simp [rqGet, List.find?, hb]

lemma rqGet_rqSet_ne (q : RQueue) (key k2 : String) (l : List QueuedRequest)
    (hk : k2 ≠ key) :
    rqGet (rqSet q key l) k2 = rqGet q k2 := by
  induction q with
  | nil => rfl
  | cons e rest ih =>
      have hstep : rqSet (e :: rest) key l
          = (if e.1 == key then (e.1, l) else e) :: rqSet rest key l := rfl
      rw [hstep]
      by_cases h : (e.1 == key) = true
      · have he : e.1 = key := by simpa using h
        have hb2 : (e.1 == k2) = false := by
          simp only [beq_eq_false_iff_ne, ne_eq]
          intro hc
          exact hk (by rw [← hc, he])
        rw [if_pos h, rqGet_cons, rqGet_cons]
        show (if e.1 == k2 then some l else rqGet (rqSet rest key l) k2)
            = if e.1 == k2 then some e.2 else rqGet rest k2
        rw [hb2]
        simpa using ih
      · have hb : (e.1 == key) = false := by simpa using h
        rw [hb]
        simp only [Bool.false_eq_true, if_neg, not_false_iff]
        rw [rqGet_cons, rqGet_cons]
        by_cases h2 : (e.1 == k2) = true
        · rw [h2]
          simp
        · have hb2 : (e.1 == k2) = false := by simpa using h2
          rw [hb2]
          simpa using ih

lemma dequeue_eq_of_get {q : RQueue} {key : String} {l : List QueuedRequest}
    (hl : rqGet q key = some l) :
    dequeue q key = (match bestIdx l with
      | none => (none, q)
      | some (i, r) => (some r, rqSet q key (l.eraseIdx i))) := by
  unfold dequeue
  rw [hl]

/-- C6 (amended): dequeue on an absent or empty key returns none and changes
nothing; otherwise it returns and removes an element of maximal priority and,
among equal maxima, the LATEST-enqueued one (Rust `Iterator::max_by` keeps the
last maximal element), leaving every other element and every other key
unchanged. -/
theorem dequeue_max_priority_last_tie :
    ∀ (q : RQueue) (key : String),
      (rqGet q key = none → dequeue q key = (none, q))
      ∧ (rqGet q key = some [] → dequeue q key = (none, q))
      ∧ (∀ l, rqGet q key = some l → l ≠ [] →
          ∃ i r, l.get? i = some r
            ∧ (dequeue q key).1 = some r
            ∧ rqGet (dequeue q key).2 key = some (l.eraseIdx i)
            ∧ (∀ j x, l.get? j = some x → x.priority ≤ r.priority)
            ∧ (∀ j x, l.get? j = some x → i < j → x.priority < r.priority))
      ∧ (∀ k2, k2 ≠ key → rqGet (dequeue q key).2 k2 = rqGet q k2) := by
  intro q key
  refine ⟨?_, ?_, ?_, ?_⟩
  · intro h
    unfold dequeue
    rw [h]
  · intro h
    unfold dequeue
    rw [h]
    rfl
  · intro l hl hne
    obtain ⟨i, r, hbi, hget, hmax, hstrict⟩ := bestIdx_spec l hne
    refine ⟨i, r, hget, ?_, ?_, hmax, hstrict⟩
    · rw [dequeue_eq_of_get hl, hbi]
    · rw [dequeue_eq_of_get hl, hbi]
      show rqGet (rqSet q key (l.eraseIdx i)) key = some (l.eraseIdx i)
      rw [rqGet_rqSet, hl]
      rfl
  · intro k2 hk
    cases hl : rqGet q key with
    | none =>
        unfold dequeue
        rw [hl]
    | some l =>
        rw [dequeue_eq_of_get hl]
        cases hbi : bestIdx l with
        | none => rfl
        | some pr =>
            cases pr with
            | mk i r => exact rqGet_rqSet_ne q key k2 _ hk

/-- First enqueued of the two tied requests in the C6 counterexample. -/
def tieReqA : QueuedRequest := ⟨"r1", "u1", "m", 5, 0⟩

/-- Second enqueued of the two tied requests in the C6 counterexample. -/
def tieReqB : QueuedRequest := ⟨"r2", "u2", "m", 5, 1⟩

/-- C6 counterexample: with two equal-priority requests enqueued `r1` then `r2`,
dequeue returns `r2` — the latest-enqueued of the tied maxima — not the
earliest-enqueued `r1` the claim requires. -/
theorem dequeue_tie_returns_latest :
    tieReqA.priority = tieReqB.priority
    ∧ tieReqA.enqueuedAt < tieReqB.enqueuedAt
    ∧ (dequeue (enqueue (enqueue [] tieReqA) tieReqB) "m").1 = some tieReqB
    ∧ tieReqB ≠ tieReqA := by decide

/-- Concrete queue for the `dequeue_max_priority_last_tie` witness. -/
def spotQueue : RQueue := [("m", [⟨"a", "u", "m", 1, 0⟩, ⟨"b", "v", "m", 3, 1⟩])]

/-- Witness for `dequeue_max_priority_last_tie` on a concrete two-element line. -/
theorem dequeue_max_priority_last_tie_spot :
    ∃ i r, ([⟨"a", "u", "m", 1, 0⟩, ⟨"b", "v", "m", 3, 1⟩] : List QueuedRequest).get? i = some r
      ∧ (dequeue spotQueue "m").1 = some r
      ∧ rqGet (dequeue spotQueue "m").2 "m"
          = some (([⟨"a", "u", "m", 1, 0⟩, ⟨"b", "v", "m", 3, 1⟩] : List QueuedRequest).eraseIdx i)
      ∧ (∀ j x, ([⟨"a", "u", "m", 1, 0⟩, ⟨"b", "v", "m", 3, 1⟩] : List QueuedRequest).get? j = some x →
          x.priority ≤ r.priority)
      ∧ (∀ j x, ([⟨"a", "u", "m", 1, 0⟩, ⟨"b", "v", "m", 3, 1⟩] : List QueuedRequest).get? j = some x →
          i < j → x.priority < r.priority) :=
  (dequeue_max_priority_last_tie spotQueue "m").2.2.1
    [⟨"a", "u", "m", 1, 0⟩, ⟨"b", "v", "m", 3, 1⟩] (by decide) (by decide)

/- ### Model resolver (`src/scheduler/resolver.rs`) -/

/-- A row of the `models` table with the columns the resolver reads;
`last_used_at` is nullable and drives the MRU fallback ordering. -/
structure ModelRow where
  id : String
  hfRepo : String
  backendPort : Option Int
  loaded : Bool
  categoryId : Option String
  backendType : String
  lastUsedAt : Option Nat
deriving Repr, DecidableEq

/-- A row of the `model_categories` table. -/
structure CategoryRow where
  id : String
  name : String
  preferredModelId : Option String
deriving Repr, DecidableEq

/-- The tables the resolver queries. -/
structure ModelsDB where
  models : List ModelRow
  categories : List CategoryRow
deriving Repr, DecidableEq

/-- The three `bail!` error cases of `resolve_model`. -/
inductive ResolveErr where
  | specificNotFound (modelId : String)
  | categoryEmpty (categoryId : String)
  | notFound (modelName : String)
deriving Repr, DecidableEq

/-- The preferred-model join of `resolve_from_category_id`:
`model_categories c JOIN models m ON m.id = c.preferred_model_id WHERE c.id = ?`. -/
def preferredOfCategory (db : ModelsDB) (catId : String) : Option ModelRow :=
  match db.categories.find? (fun c => c.id == catId) with
  | some c =>
      match c.preferredModelId with
      | some pid => db.models.find? (fun m => m.id == pid)
      | none => none
  | none => none

/-- Strict "more recently used" on nullable `last_used_at`
(SQL `ORDER BY last_used_at DESC` sorts NULL last). -/
def luLt : Option Nat → Option Nat → Bool
  | none, some _ => true
  | some a, some b => a < b
  | _, _ => false

/-- One step of taking the most-recently-used row: replace the accumulator only
on strictly more recent, keeping the earliest table row among ties
(`LIMIT 1` on equal keys is row-order dependent). -/
def mruStep (acc : Option ModelRow) (m : ModelRow) : Option ModelRow :=
  match acc with
  | none => some m
  | some b => if luLt b.lastUsedAt m.lastUsedAt then some m else some b

/-- The loaded-fallback query of `resolve_from_category_id`:
`WHERE category_id = ? AND loaded = 1 ORDER BY last_used_at DESC LIMIT 1`. -/
def mruLoadedInCategory (db : ModelsDB) (catId : String) : Option ModelRow :=
  (db.models.filter (fun m => m.categoryId == some catId && m.loaded)).foldl mruStep none

/-- `resolve_from_category_id`: preferred model when loaded, else the
most-recently-used loaded model of the category, else the preferred model even
if unloaded, else none. -/
def resolveFromCategoryId (db : ModelsDB) (catId : String) : Option ModelRow :=
  match preferredOfCategory db catId with
  | some m =>
      if m.loaded then some m
      else
        match mruLoadedInCategory db catId with
        | some f => some f
        | none => some m
  | none =>
      match mruLoadedInCategory db catId with
      | some f => some f
      | none => none

/-- `resolve_by_id_or_repo`: `WHERE id = ? OR hf_repo = ?`, first row. -/
def resolveByIdOrRepo (db : ModelsDB) (name : String) : Option ModelRow :=
  db.models.find? (fun m => m.id == name || m.hfRepo == name)

/-- `resolve_from_category_name`: look the category up by name, then apply the
category-id policy. -/
def resolveFromCategoryName (db : ModelsDB) (name : String) : Option ModelRow :=
  match db.categories.find? (fun c => c.name == name) with
  | some c => resolveFromCategoryId db c.id
  | none => none

/-- `resolve_model`: specific-model override, then category scope (never falling
through), then model name as id/repo, then model name as category name. -/
def resolve_model (db : ModelsDB) (modelName : String)
    (categoryId : Option String) (specificModelId : Option String) :
    Except ResolveErr ModelRow :=
  match specificModelId with
  | some sid =>
      match db.models.find? (fun m => m.id == sid) with
      | some m => .ok m
      | none => .error (.specificNotFound sid)
  | none =>
      match categoryId with
      | some cid =>
          match resolveFromCategoryId db cid with
          | some m => .ok m
          | none => .error (.categoryEmpty cid)
      | none =>
          match resolveByIdOrRepo db modelName with
          | some m => .ok m
          | none =>
              match resolveFromCategoryName db modelName with
              | some m => .ok m
              | none => .error (.notFound modelName)

lemma luLt_irrefl (a : Option Nat) : luLt a a = false := by
  cases a <;> simp [luLt]

lemma luLt_false_trans (a b c : Option Nat)
    (h1 : luLt a b = false) (h2 : luLt b c = false) : luLt a c = false := by
  cases a <;> cases b <;> cases c <;> simp_all [luLt]
  omega

lemma luLt_false_of_lt (b m r : Option Nat)
    (h1 : luLt b m = true) (h2 : luLt r m = false) : luLt r b = false := by
  cases b <;> cases m <;> cases r <;> simp_all [luLt]
  omega

lemma mruFold_spec (l : List ModelRow) :
    ∀ b : ModelRow, ∃ r, l.foldl mruStep (some b) = some r
      ∧ (r = b ∨ r ∈ l)
      ∧ luLt r.lastUsedAt b.lastUsedAt = false
      ∧ ∀ x ∈ l, luLt r.lastUsedAt x.lastUsedAt = false := by
  induction l with
  | nil =>
      intro b
      exact ⟨b, rfl, Or.inl rfl, luLt_irrefl _, fun x hx => absurd hx (by simp)⟩
  | cons m rest ih =>
      intro b
      by_cases hc : luLt b.lastUsedAt m.lastUsedAt = true
      · obtain ⟨r, hr, hmem, hb, hall⟩ := ih m
        have hstep : (m :: rest).foldl mruStep (some b) = rest.foldl mruStep (some m) := by
          simp [List.foldl_cons, mruStep, hc]
        refine ⟨r, by rw [hstep]; exact hr, ?_, ?_, ?_⟩
        · rcases hmem with h | h
          · exact Or.inr (by simp [h])
          · exact Or.inr (by simp [h])
        · exact luLt_false_of_lt _ _ _ hc hb
        · intro x hx
          rcases List.mem_cons.mp hx with h | h
          · rw [h]; exact hb
          · exact hall x h
      · have hcf : luLt b.lastUsedAt m.lastUsedAt = false := by
          simpa using hc
        obtain ⟨r, hr, hmem, hb, hall⟩ := ih b
        have hstep : (m :: rest).foldl mruStep (some b) = rest.foldl mruStep (some b) := by
          simp [List.foldl_cons, mruStep, hcf]
        refine ⟨r, by rw [hstep]; exact hr, ?_, hb, ?_⟩
        · rcases hmem with h | h
          · exact Or.inl h
          · exact Or.inr (by simp [h])
        · intro x hx
          rcases List.mem_cons.mp hx with h | h
          · rw [h]
            exact luLt_false_trans _ _ _ hb hcf
          · exact hall x h

lemma mruLoaded_spec (db : ModelsDB) (catId : String) :
    ∀ f, mruLoadedInCategory db catId = some f →
      f.categoryId = some catId ∧ f.loaded = true
      ∧ ∀ x ∈ db.models, x.loaded = true → x.categoryId = some catId →
          luLt f.lastUsedAt x.lastUsedAt = false := by
  intro f hf
  unfold mruLoadedInCategory at hf
  set fl := db.models.filter (fun m => m.categoryId == some catId && m.loaded) with hfl
  have hmemfl : ∀ x ∈ db.models, x.loaded = true → x.categoryId = some catId → x ∈ fl := by
    intro x hx hxl hxc
    rw [hfl]
    refine List.mem_filter.mpr ⟨hx, ?_⟩
    simp [hxl, hxc]
  have hof : ∀ x ∈ fl, x.categoryId = some catId ∧ x.loaded = true := by
    intro x hx
    rw [hfl] at hx
    have := (List.mem_filter.mp hx).2
    simp only [Bool.and_eq_true, beq_iff_eq] at this
    exact this
  cases hcase : fl with
  | nil => rw [hcase] at hf; exact absurd hf (by simp)
  | cons b rest =>
      rw [hcase] at hf
      have hstep : (b :: rest).foldl mruStep none = rest.foldl mruStep (some b) := rfl
      rw [hstep] at hf
      obtain ⟨r, hr, hmem, hb, hall⟩ := mruFold_spec rest b
      rw [hr] at hf
      have hrf : r = f := by simpa using hf
      subst hrf
      have hrfl : r ∈ fl := by
        rw [hcase]
        rcases hmem with h | h
        · simp [h]
        · simp [h]
      refine ⟨(hof r hrfl).1, (hof r hrfl).2, ?_⟩
      intro x hx hxl hxc
      have hxfl := hmemfl x hx hxl hxc
      rw [hcase] at hxfl
      rcases List.mem_cons.mp hxfl with h | h
      · rw [h]; exact hb
      · exact hall x h

lemma resolve_model_category (db : ModelsDB) (name cid : String) :
    resolve_model db name (some cid) none
      = match resolveFromCategoryId db cid with
        | some m => Except.ok m
        | none => Except.error (ResolveErr.categoryEmpty cid) := rfl

/-- C4: with `specific_model_id` unset and `category_id` set, resolution yields
the category's preferred model when loaded, else the most-recently-used loaded
model of the category, else the preferred model even if unloaded; when the
category yields nothing it fails with category-empty, independent of
`model_name`, and every success is the preferred model or a loaded model of the
category — never a fall-through to name resolution. -/
theorem resolve_category_scope :
    ∀ (db : ModelsDB) (name : String) (cid : String),
      (∀ m, preferredOfCategory db cid = some m → m.loaded = true →
          resolve_model db name (some cid) none = .ok m)
      ∧ (∀ m, preferredOfCategory db cid = some m → m.loaded = false →
          ∀ f, mruLoadedInCategory db cid = some f →
            resolve_model db name (some cid) none = .ok f)
      ∧ (preferredOfCategory db cid = none →
          ∀ f, mruLoadedInCategory db cid = some f →
            resolve_model db name (some cid) none = .ok f)
      ∧ (∀ m, preferredOfCategory db cid = some m → m.loaded = false →
          mruLoadedInCategory db cid = none →
          resolve_model db name (some cid) none = .ok m)
      ∧ (preferredOfCategory db cid = none → mruLoadedInCategory db cid = none →
          resolve_model db name (some cid) none = .error (.categoryEmpty cid))
      ∧ (∀ f, mruLoadedInCategory db cid = some f →
          f.categoryId = some cid ∧ f.loaded = true
          ∧ ∀ x ∈ db.models, x.loaded = true → x.categoryId = some cid →
              luLt f.lastUsedAt x.lastUsedAt = false)
      ∧ (∀ n2, resolve_model db name (some cid) none = resolve_model db n2 (some cid) none)
      ∧ (∀ m, resolve_model db name (some cid) none = .ok m →
          preferredOfCategory db cid = some m ∨ (m.categoryId = some cid ∧ m.loaded = true)) := by
  intro db name cid
  refine ⟨?_, ?_, ?_, ?_, ?_, ?_, ?_, ?_⟩
  · intro m hp hl
    have hr : resolveFromCategoryId db cid = some m := by
      unfold resolveFromCategoryId
      rw [hp]
      simp [hl]
    rw [resolve_model_category, hr]
  · intro m hp hl f hf
    have hr : resolveFromCategoryId db cid = some f := by
      unfold resolveFromCategoryId
      rw [hp, hf]
      simp [hl]
    rw [resolve_model_category, hr]
  · intro hp f hf
    have hr : resolveFromCategoryId db cid = some f := by
      unfold resolveFromCategoryId
      rw [hp, hf]
    rw [resolve_model_category, hr]
  · intro m hp hl hf
    have hr : resolveFromCategoryId db cid = some m := by
      unfold resolveFromCategoryId
      rw [hp, hf]
      simp [hl]
    rw [resolve_model_category, hr]
  · intro hp hf
    have hr : resolveFromCategoryId db cid = none := by
      unfold resolveFromCategoryId
      rw [hp, hf]
    rw [resolve_model_category, hr]
  · exact mruLoaded_spec db cid
  · intro n2
    rw [resolve_model_category, resolve_model_category]
  · intro m hok
    rw [resolve_model_category] at hok
    cases hp : preferredOfCategory db cid with
    | some p =>
        by_cases hl : p.loaded = true
        · have hr : resolveFromCategoryId db cid = some p := by
            unfold resolveFromCategoryId
            rw [hp]
            simp [hl]
          rw [hr] at hok
          have hpm : p = m := by simpa using hok
          subst hpm
          exact Or.inl rfl
        · have hlf : p.loaded = false := by simpa using hl
          cases hf : mruLoadedInCategory db cid with
          | some f =>
              have hr : resolveFromCategoryId db cid = some f := by
                unfold resolveFromCategoryId
                rw [hp, hf]
                simp [hlf]
              rw [hr] at hok
              have hfm : f = m := by simpa using hok
              have := mruLoaded_spec db cid f hf
              exact Or.inr ⟨hfm ▸ this.1, hfm ▸ this.2.1⟩
          | none =>
              have hr : resolveFromCategoryId db cid = some p := by
                unfold resolveFromCategoryId
                rw [hp, hf]
                simp [hlf]
              rw [hr] at hok
              have hpm : p = m := by simpa using hok
              subst hpm
              exact Or.inl rfl
    | none =>
        cases hf : mruLoadedInCategory db cid with
        | some f =>
            have hr : resolveFromCategoryId db cid = some f := by
              unfold resolveFromCategoryId
              rw [hp, hf]
            rw [hr] at hok
            have hfm : f = m := by simpa using hok
            have := mruLoaded_spec db cid f hf
            exact Or.inr ⟨hfm ▸ this.1, hfm ▸ this.2.1⟩
        | none =>
            have hr : resolveFromCategoryId db cid = none := by
              unfold resolveFromCategoryId
              rw [hp, hf]
            rw [hr] at hok
            exact absurd hok (by simp)

/-- Concrete database for the C4 witness: preferred model `m1` of category `C`
is not loaded, `m2` is the only loaded model in `C`. -/
def spotModelsDB : ModelsDB :=
  { models := [⟨"m1", "repo1", none, false, some "C", "llamacpp", some 5⟩,
               ⟨"m2", "repo2", some 8080, true, some "C", "llamacpp", some 3⟩],
    categories := [⟨"C", "chat", some "m1"⟩] }

/-- Witness for `resolve_category_scope`: the unloaded preferred model is passed
over in favor of the loaded MRU model of the category. -/
theorem resolve_category_scope_spot :
    resolve_model spotModelsDB "whatever" (some "C") none
      = .ok ⟨"m2", "repo2", some 8080, true, some "C", "llamacpp", some 3⟩ :=
  (resolve_category_scope spotModelsDB "whatever" "C").2.1
    ⟨"m1", "repo1", none, false, some "C", "llamacpp", some 5⟩
    (by decide) (by decide)
    ⟨"m2", "repo2", some 8080, true, some "C", "llamacpp", some 3⟩
    (by decide)

/- ### Admission prefix of the inference handler (`src/api/openai.rs`) -/

/-- `ActiveReservation` from `scheduler/reservation.rs` (in-memory cache entry). -/
structure ActiveReservation where
  reservationId : String
  userId : String
  endTime : Nat
  userDisplayName : Option String
deriving Repr, DecidableEq

/-- `AuthUser` from `auth/mod.rs`, as produced by token validation. -/
structure AuthUser where
  userId : String
  tokenId : String
  categoryId : Option String
  specificModelId : Option String
  isAdmin : Bool
  isInternal : Bool
deriving Repr, DecidableEq

/-- The four ways the admission prefix of `proxy_completion` can leave the
handler before the backend call: 404 `model_not_found`, 503 `model_not_loaded`,
503 `system_reserved`, or proceeding to the gate-acquire step. -/
inductive AdmissionOutcome where
  | modelNotFound
  | modelNotLoaded
  | systemReserved
  | gateStep
deriving Repr, DecidableEq

/-- The decision sequence of `proxy_completion` up to the gate step: resolution
failure gives 404; an unloaded model gives 503 `model_not_loaded`; then, only
for non-internal callers, an active reservation held by a different user gives
503 `system_reserved`; otherwise the request reaches the gate. -/
def admissionDecision (resolved : Except ResolveErr ModelRow) (user : AuthUser)
    (active : Option ActiveReservation) : AdmissionOutcome :=
  match resolved with
  | .error _ => .modelNotFound
  | .ok m =>
      if !m.loaded then .modelNotLoaded
      else
        if !user.isInternal then
          match active with
          | some a => if a.userId != user.userId then .systemReserved else .gateStep
          | none => .gateStep
        else .gateStep

/-- `proxy_completion`'s admission prefix: resolve with the token's constraints
and decide. -/
def proxyAdmission (db : ModelsDB) (user : AuthUser) (parsedModel : String)
    (active : Option ActiveReservation) : AdmissionOutcome :=
  admissionDecision (resolve_model db parsedModel user.categoryId user.specificModelId)
    user active

/-- C3: an unloaded resolved model yields 503 `model_not_loaded` for every
reservation state (so before any reservation check); a loaded model with an
active reservation held by someone else yields 503 `system_reserved` for
non-internal callers (so the gate step is never reached); internal tokens always
bypass the reservation check; and the outcome never depends on `is_admin`. -/
theorem admission_order_and_bypass :
    (∀ (db : ModelsDB) (user : AuthUser) (pm : String)
        (active : Option ActiveReservation) (m : ModelRow),
      resolve_model db pm user.categoryId user.specificModelId = .ok m →
        ((m.loaded = false → proxyAdmission db user pm active = .modelNotLoaded)
        ∧ (m.loaded = true → user.isInternal = false → ∀ a, active = some a →
            a.userId ≠ user.userId → proxyAdmission db user pm active = .systemReserved)
        ∧ (m.loaded = true → user.isInternal = true →
            proxyAdmission db user pm active = .gateStep)
        ∧ (m.loaded = true → user.isInternal = false →
            (∀ a, active = some a → a.userId = user.userId →
              proxyAdmission db user pm active = .gateStep)
            ∧ (active = none → proxyAdmission db user pm active = .gateStep))))
    ∧ (∀ (db : ModelsDB) (user : AuthUser) (pm : String)
        (active : Option ActiveReservation) (b : Bool),
        proxyAdmission db { user with isAdmin := b } pm active
          = proxyAdmission db user pm active) := by
  constructor
  · intro db user pm active m hok
    refine ⟨?_, ?_, ?_, ?_⟩
    · intro hnl
      unfold proxyAdmission admissionDecision
      rw [hok]
      simp [hnl]
    · intro hl hni a ha hne
      unfold proxyAdmission admissionDecision
      rw [hok]
      subst ha
      simp [hl, hni, hne]
    · intro hl hi
      unfold proxyAdmission admissionDecision
      rw [hok]
      simp [hl, hi]
    · intro hl hni
      constructor
      · intro a ha heq
        unfold proxyAdmission admissionDecision
        rw [hok]
        subst ha
        simp [hl, hni, heq]
      · intro ha
        unfold proxyAdmission admissionDecision
        rw [hok]
        subst ha
        simp [hl, hni]
  · intro db user pm active b
    unfold proxyAdmission
    rfl

/-- Witness for `admission_order_and_bypass`: an admin, non-internal caller with
a specific-model token is rejected with `system_reserved` while another user's
reservation is active. -/
theorem admission_order_and_bypass_spot :
    proxyAdmission spotModelsDB
      ⟨"bob", "t1", none, some "m2", true, false⟩ "x"
      (some ⟨"res1", "alice", 100, none⟩) = .systemReserved :=
  ((admission_order_and_bypass.1 spotModelsDB
      ⟨"bob", "t1", none, some "m2", true, false⟩ "x"
      (some ⟨"res1", "alice", 100, none⟩)
      ⟨"m2", "repo2", some 8080, true, some "C", "llamacpp", some 3⟩
      rfl).2.1 (by decide) (by decide)
      ⟨"res1", "alice", 100, none⟩ rfl (by decide))

/- ### Settings store (`src/scheduler/settings.rs`) -/

/-- The six recognized settings keys of `load_settings`. -/
inductive SettingKey where
  | basePriority
  | waitWeight
  | usageWeight
  | usageScale
  | windowMinutes
  | timeoutSecs
deriving Repr, DecidableEq

/-- The literal key string of each recognized setting. -/
def keyName : SettingKey → String
  | .basePriority => "fairness_base_priority"
  | .waitWeight => "fairness_wait_weight"
  | .usageWeight => "fairness_usage_weight"
  | .usageScale => "fairness_usage_scale"
  | .windowMinutes => "fairness_window_minutes"
  | .timeoutSecs => "queue_timeout_secs"

/-- The `match key.as_str()` dispatch of `load_settings`, written as the chain of
string comparisons the Rust match compiles to; unknown keys give `none`. -/
def keyOf (k : String) : Option SettingKey :=
  if k = "fairness_base_priority" then some .basePriority
  else if k = "fairness_wait_weight" then some .waitWeight
  else if k = "fairness_usage_weight" then some .usageWeight
  else if k = "fairness_usage_scale" then some .usageScale
  else if k = "fairness_window_minutes" then some .windowMinutes
  else if k = "queue_timeout_secs" then some .timeoutSecs
  else none

/-- Value of a decimal digit character. -/
def digitVal (c : Char) : Option Nat :=
  if c.isDigit then some (c.toNat - 48) else none

/-- Value of a nonempty all-digit string (none on empty or any non-digit),
the core of Rust's integer `from_str`. -/
def digitsVal (cs : List Char) : Option Nat :=
  match cs with
  | [] => none
  | _ =>
      cs.foldl (fun acc c =>
        match acc, digitVal c with
        | some n, some d => some (n * 10 + d)
        | _, _ => none) (some 0)

/-- `u64::from_str`: plain digits with an optional leading `+`; values above
`u64::MAX` (2^64 - 1) are rejected exactly as Rust's overflow error path does. -/
def parseNatNum (str : String) : Option Nat :=
  match str.toList with
  | '+' :: r => (digitsVal r).bind (fun n => if n ≤ 2 ^ 64 - 1 then some n else none)
  | cs => (digitsVal cs).bind (fun n => if n ≤ 2 ^ 64 - 1 then some n else none)

/-- `i64::from_str`: optional sign then digits; values outside
`[-2^63, 2^63 - 1]` are rejected exactly as Rust's overflow error path does. -/
def parseIntNum (str : String) : Option Int :=
  match str.toList with
  | '-' :: r => (digitsVal r).bind
      (fun n => if n ≤ 2 ^ 63 then some (-(n : Int)) else none)
  | '+' :: r => (digitsVal r).bind
      (fun n => if n ≤ 2 ^ 63 - 1 then some ((n : Int)) else none)
  | cs => (digitsVal cs).bind
      (fun n => if n ≤ 2 ^ 63 - 1 then some ((n : Int)) else none)

/-- Split a character list at every `.`. -/
def splitDotAux : List Char → List Char → List (List Char)
  | [], cur => [cur.reverse]
  | c :: rest, cur =>
      if c = '.' then cur.reverse :: splitDotAux rest []
      else splitDotAux rest (c :: cur)

/-- Split a character list at the first `e`/`E` (mantissa, optional exponent
part). -/
def splitExpAux : List Char → List Char → List Char × Option (List Char)
  | [], acc => (acc.reverse, none)
  | c :: rest, acc =>
      if c = 'e' ∨ c = 'E' then (acc.reverse, some rest)
      else splitExpAux rest (c :: acc)

/-- The exponent of the float grammar, `Exp ::= ('e'|'E') Sign? Digits`
(the sign and digits after the `e`). -/
def parseExp (cs : List Char) : Option Int :=
  match cs with
  | '-' :: r => (digitsVal r).map (fun n => -(n : Int))
  | '+' :: r => (digitsVal r).map (fun n => (n : Int))
  | r => (digitsVal r).map (fun n => (n : Int))

/-- The mantissa of the float grammar,
`Digits '.'? Digits? | '.' Digits`, as an exact rational. -/
def mantissaVal (cs : List Char) : Option ℚ :=
  match splitDotAux cs [] with
  | [ip] => (digitsVal ip).map (fun n => (n : ℚ))
  | [ip, fp] =>
      if ip.isEmpty && fp.isEmpty then none
      else
        match (if ip.isEmpty then some 0 else digitsVal ip),
              (if fp.isEmpty then some 0 else digitsVal fp) with
        | some i, some f => some ((i : ℚ) + (f : ℚ) / (10 : ℚ) ^ fp.length)
        | _, _ => none
  | _ => none

/-- The finite-number part of `f64::from_str`:
`Sign? (Digits '.'? Digits? | '.' Digits) Exp?`, valued as the exact rational of
the decimal literal. This matches Rust's accept/reject decision on every finite
numeral; the rounding of that rational to the nearest `f64` (including the
saturation of out-of-range magnitudes to infinity) is idealized away, as in the
rest of this file's real-number model. Rust additionally accepts the nonfinite
forms `Sign? (inf|infinity|nan)` (see `isF64SpecialForm`); those have no
rational value and are outside this model. -/
def parseQNum (str : String) : Option ℚ :=
  let signSplit : Bool × List Char :=
    match str.toList with
    | '-' :: r => (true, r)
    | '+' :: r => (false, r)
    | cs => (false, cs)
  let eSplit := splitExpAux signSplit.2 []
  let core : Option ℚ :=
    match mantissaVal eSplit.1 with
    | some q =>
        match eSplit.2 with
        | none => some q
        | some ec => (parseExp ec).map (fun e => q * (10 : ℚ) ^ e)
    | none => none
  core.map (fun q => if signSplit.1 then -q else q)

/-- Lower-case an ASCII letter. -/
def asciiLower (c : Char) : Char :=
  if 'A' ≤ c ∧ c ≤ 'Z' then Char.ofNat (c.toNat + 32) else c

/-- The nonfinite forms `f64::from_str` accepts besides finite numerals:
`Sign? (inf|infinity|nan)`, case-insensitive. A settings value of this form is
parsed successfully by the Rust code and stores a nonfinite `f64`; such values
have no rational representative, so the C9 default-keeping statement excludes
them for the four `f64` keys. -/
def isF64SpecialForm (str : String) : Bool :=
  let body : List Char :=
    match str.toList with
    | '-' :: r => r
    | '+' :: r => r
    | cs => cs
  let lower := body.map asciiLower
  lower == ['i', 'n', 'f'] || lower == ['i', 'n', 'f', 'i', 'n', 'i', 't', 'y']
    || lower == ['n', 'a', 'n']

/-- Whether a settings key stores an `f64` field (parsed with `f64::from_str`). -/
def keyUsesF64 (k : String) : Bool :=
  match keyOf k with
  | some .basePriority | some .waitWeight | some .usageWeight | some .usageScale => true
  | _ => false

/-- One row of the `for (key, value) in &rows` loop of `load_settings`: a
recognized key whose value parses replaces that field, anything else leaves the
snapshot unchanged. -/
def applySettingRow (s : FairnessSettings) (kv : String × String) : FairnessSettings :=
  match keyOf kv.1 with
  | some .basePriority =>
      match parseQNum kv.2 with
      | some v => { s with basePriority := v }
      | none => s
  | some .waitWeight =>
      match parseQNum kv.2 with
      | some v => { s with waitWeight := v }
      | none => s
  | some .usageWeight =>
      match parseQNum kv.2 with
      | some v => { s with usageWeight := v }
      | none => s
  | some .usageScale =>
      match parseQNum kv.2 with
      | some v => { s with usageScale := v }
      | none => s
  | some .windowMinutes =>
      match parseIntNum kv.2 with
      | some v => { s with windowMinutes := v }
      | none => s
  | some .timeoutSecs =>
      match parseNatNum kv.2 with
      | some v => { s with queueTimeoutSecs := v }
      | none => s
  | none => s

/-- `load_settings`: fold the `settings` rows over the compile-time defaults. -/
def load_settings (tbl : List (String × String)) : FairnessSettings :=
  tbl.foldl applySettingRow defaultSettings

/-- `save_setting`: `INSERT .. ON CONFLICT(key) DO UPDATE SET value = ..`
(upsert on the unique key column). -/
def save_setting (tbl : List (String × String)) (k v : String) :
    List (String × String) :=
  if tbl.any (fun e => e.1 == k) then
    tbl.map (fun e => if e.1 == k then (k, v) else e)
  else tbl ++ [(k, v)]

/-- A typed settings value, for reading a snapshot field by key. -/
inductive SettingVal where
  | ratVal (x : ℚ)
  | intVal (x : Int)
  | natVal (x : Nat)
deriving Repr, DecidableEq

/-- Read the snapshot field a key refers to (none for unrecognized keys). -/
def getSetting (s : FairnessSettings) (k : String) : Option SettingVal :=
  match keyOf k with
  | some .basePriority => some (.ratVal s.basePriority)
  | some .waitWeight => some (.ratVal s.waitWeight)
  | some .usageWeight => some (.ratVal s.usageWeight)
  | some .usageScale => some (.ratVal s.usageScale)
  | some .windowMinutes => some (.intVal s.windowMinutes)
  | some .timeoutSecs => some (.natVal s.queueTimeoutSecs)
  | none => none

/-- Parse a stored value with the parser `load_settings` uses for that key. -/
def parseSettingVal (k v : String) : Option SettingVal :=
  match keyOf k with
  | some .basePriority | some .waitWeight | some .usageWeight | some .usageScale =>
      (parseQNum v).map SettingVal.ratVal
  | some .windowMinutes => (parseIntNum v).map SettingVal.intVal
  | some .timeoutSecs => (parseNatNum v).map SettingVal.natVal
  | none => none

lemma keyOf_eq_some {k : String} {key : SettingKey} (h : keyOf k = some key) :
    k = keyName key := by
  unfold keyOf at h
  split_ifs at h with h1 h2 h3 h4 h5 h6
  all_goals injection h with h'
  all_goals subst h'
  all_goals assumption

lemma getSetting_applySettingRow_self (s : FairnessSettings) (k v : String) :
    getSetting (applySettingRow s (k, v)) k
      = match parseSettingVal k v with
        | some val => some val
        | none => getSetting s k := by
  cases hk : keyOf k with
  | none =>
      unfold getSetting applySettingRow parseSettingVal
      dsimp only
      rw [hk]
  | some key =>
      cases key with
      | basePriority =>
          unfold getSetting applySettingRow parseSettingVal
          dsimp only
          rw [hk]
          cases hp : parseQNum v <;> rfl
      | waitWeight =>
          unfold getSetting applySettingRow parseSettingVal
          dsimp only
          rw [hk]
          cases hp : parseQNum v <;> rfl
      | usageWeight =>
          unfold getSetting applySettingRow parseSettingVal
          dsimp only
          rw [hk]
          cases hp : parseQNum v <;> rfl
      | usageScale =>
          unfold getSetting applySettingRow parseSettingVal
          dsimp only
          rw [hk]
          cases hp : parseQNum v <;> rfl
      | windowMinutes =>
          unfold getSetting applySettingRow parseSettingVal
          dsimp only
          rw [hk]
          cases hp : parseIntNum v <;> rfl
      | timeoutSecs =>
          unfold getSetting applySettingRow parseSettingVal
          dsimp only
          rw [hk]
          cases hp : parseNatNum v <;> rfl

lemma getSetting_applySettingRow_ne (s : FairnessSettings) (k v k2 : String)
    (hne : k2 ≠ k) :
    getSetting (applySettingRow s (k, v)) k2 = getSetting s k2 := by
  cases hk : keyOf k with
  | none =>
      have : applySettingRow s (k, v) = s := by
        unfold applySettingRow
        dsimp only
        rw [hk]
      rw [this]
  | some key =>
      have hkn : k = keyName key := keyOf_eq_some hk
      cases hk2 : keyOf k2 with
      | none =>
          unfold getSetting
          rw [hk2]
      | some key2 =>
          have hk2n : k2 = keyName key2 := keyOf_eq_some hk2
          have hkey : key ≠ key2 := by
            intro h
            subst h
            exact hne (by rw [hk2n, hkn])
          unfold getSetting applySettingRow
          dsimp only
          rw [hk, hk2]
          cases key <;> cases key2 <;>
            first
              | exact absurd rfl hkey
              | (cases hp : parseQNum v <;> rfl)
              | (cases hp : parseIntNum v <;> rfl)
              | (cases hp : parseNatNum v <;> rfl)

/-- Last successful parse stored under key `k`, folded left to right (the
effective value `load_settings` ends up with for that key). -/
def effAux (tbl : List (String × String)) (k : String) (acc : Option SettingVal) :
    Option SettingVal :=
  tbl.foldl (fun a kv =>
    if kv.1 == k then
      match parseSettingVal k kv.2 with
      | some val => some val
      | none => a
    else a) acc

lemma effAux_acc (k : String) :
    ∀ (tbl : List (String × String)) (acc : Option SettingVal),
      effAux tbl k acc = match effAux tbl k none with
        | some v => some v
        | none => acc := by
  intro tbl
  induction tbl with
  | nil => intro acc; rfl
  | cons kv rest ih =>
      intro acc
      by_cases hk : (kv.1 == k) = true
      · cases hp : parseSettingVal k kv.2 with
        | some val =>
            have hstep : ∀ a, effAux (kv :: rest) k a = effAux rest k (some val) := by
              intro a
              show effAux rest k (if kv.1 == k then _ else a) = _
              rw [hk]
              simp only [if_pos, hp]
            rw [hstep acc, hstep none]
            rw [ih (some val)]
            cases effAux rest k none <;> rfl
        | none =>
            have hstep : ∀ a, effAux (kv :: rest) k a = effAux rest k a := by
              intro a
              show effAux rest k (if kv.1 == k then _ else a) = _
              rw [hk]
              simp only [if_pos, hp]
            rw [hstep acc, hstep none]
            exact ih acc
      · have hkf : (kv.1 == k) = false := by simpa using hk
        have hstep : ∀ a, effAux (kv :: rest) k a = effAux rest k a := by
          intro a
          show effAux rest k (if kv.1 == k then _ else a) = _
          rw [hkf]
          simp
        rw [hstep acc, hstep none]
        exact ih acc

lemma getSetting_foldl (k : String) :
    ∀ (tbl : List (String × String)) (s : FairnessSettings),
      getSetting (tbl.foldl applySettingRow s) k
        = match effAux tbl k none with
          | some val => some val
          | none => getSetting s k := by
  intro tbl
  induction tbl with
  | nil => intro s; rfl
  | cons kv rest ih =>
      intro s
      have hfold : (kv :: rest).foldl applySettingRow s
          = rest.foldl applySettingRow (applySettingRow s kv) := rfl
      rw [hfold, ih]
      by_cases hk : (kv.1 == k) = true
      · have hkk : kv.1 = k := by simpa using hk
        have heff : ∀ a, effAux (kv :: rest) k a
            = effAux rest k (match parseSettingVal k kv.2 with
                | some val => some val
                | none => a) := by
          intro a
          show effAux rest k (if kv.1 == k then _ else a) = _
          rw [hk]
          simp
        rw [heff none]
        have hself : getSetting (applySettingRow s kv) k
            = match parseSettingVal k kv.2 with
              | some val => some val
              | none => getSetting s k := by
          have : kv = (k, kv.2) := by
            cases kv
            simp_all
          rw [this]
          exact getSetting_applySettingRow_self s k kv.2
        cases hp : parseSettingVal k kv.2 with
        | some val =>
            rw [hp] at hself
            rw [effAux_acc k rest (some val)]
            cases he : effAux rest k none with
            | some w => rfl
            | none => simp [hself]
        | none =>
            rw [hp] at hself
            rw [hself]
      · have hkf : (kv.1 == k) = false := by simpa using hk
        have hne : k ≠ kv.1 := by
          intro h
          rw [h] at hkf
          simp at hkf
        have heff : effAux (kv :: rest) k none = effAux rest k none := by
          show effAux rest k (if kv.1 == k then _ else none) = _
          rw [hkf]
          simp
        rw [heff]
        have : getSetting (applySettingRow s kv) k = getSetting s k := by
          have hkv : kv = (kv.1, kv.2) := rfl
          rw [hkv]
          exact getSetting_applySettingRow_ne s kv.1 kv.2 k hne
        rw [this]

lemma save_all_k (tbl : List (String × String)) (k v : String) :
    ∀ kv ∈ save_setting tbl k v, kv.1 = k → kv.2 = v := by
  intro kv hkv hk1
  unfold save_setting at hkv
  by_cases h : tbl.any (fun e => e.1 == k) = true
  · rw [if_pos h] at hkv
    obtain ⟨e, he, hee⟩ := List.mem_map.mp hkv
    by_cases hek : (e.1 == k) = true
    · rw [if_pos hek] at hee
      rw [← hee]
    · rw [if_neg hek] at hee
      subst hee
      exact absurd (by simp [hk1]) hek
  · rw [if_neg h] at hkv
    rcases List.mem_append.mp hkv with h1 | h2
    · exfalso
      apply h
      simp only [List.any_eq_true]
      exact ⟨kv, h1, by simp [hk1]⟩
    · simp only [List.mem_singleton] at h2
      subst h2
      rfl

lemma save_any_k (tbl : List (String × String)) (k v : String) :
    (save_setting tbl k v).any (fun e => e.1 == k) = true := by
  unfold save_setting
  by_cases h : tbl.any (fun e => e.1 == k) = true
  · rw [if_pos h]
    simp only [List.any_eq_true] at h ⊢
    obtain ⟨e, he, hb⟩ := h
    refine ⟨(k, v), List.mem_map.mpr ⟨e, he, by rw [if_pos hb]⟩, by simp⟩
  · rw [if_neg h]
    simp

lemma effAux_const {k v : String} {val : SettingVal}
    (hp : parseSettingVal k v = some val) :
    ∀ (tbl : List (String × String)) (acc : Option SettingVal),
      (∀ kv ∈ tbl, kv.1 = k → kv.2 = v) →
      effAux tbl k acc = if tbl.any (fun e => e.1 == k) then some val else acc := by
  intro tbl
  induction tbl with
  | nil =>
      intro acc _
      simp [effAux]
  | cons kv rest ih =>
      intro acc hall
      by_cases hek : (kv.1 == k) = true
      · have hk1 : kv.1 = k := by simpa using hek
        have hv : kv.2 = v := hall kv (by simp) hk1
        have hstep : effAux (kv :: rest) k acc = effAux rest k (some val) := by
          show effAux rest k (if kv.1 == k then _ else acc) = _
          rw [hek]
          simp only [if_pos]
          rw [hv, hp]
        rw [hstep, ih (some val) (fun x hx => hall x (by simp [hx]))]
        have hany : (kv :: rest).any (fun e => e.1 == k) = true := by
          simp only [List.any_cons, hek, Bool.true_or]
        rw [if_pos hany]
        by_cases hr : rest.any (fun e => e.1 == k) = true
        · rw [if_pos hr]
        · rw [if_neg hr]
      · have hekf : (kv.1 == k) = false := by simpa using hek
        have hstep : effAux (kv :: rest) k acc = effAux rest k acc := by
          show effAux rest k (if kv.1 == k then _ else acc) = _
          rw [hekf]
          simp
        rw [hstep, ih acc (fun x hx => hall x (by simp [hx]))]
        have hany : (kv :: rest).any (fun e => e.1 == k)
            = rest.any (fun e => e.1 == k) := by
          simp only [List.any_cons, hekf, Bool.false_or]
        rw [hany]

lemma effAux_no_k (k : String) :
    ∀ (tbl : List (String × String)) (acc : Option SettingVal),
      (∀ kv ∈ tbl, kv.1 ≠ k) → effAux tbl k acc = acc := by
  intro tbl
  induction tbl with
  | nil => intro acc _; rfl
  | cons kv rest ih =>
      intro acc hall
      have hekf : (kv.1 == k) = false := by
        simpa using hall kv (by simp)
      have hstep : effAux (kv :: rest) k acc = effAux rest k acc := by
        show effAux rest k (if kv.1 == k then _ else acc) = _
        rw [hekf]
        simp
      rw [hstep]
      exact ih acc (fun x hx => hall x (by simp [hx]))

/-- C9: `save_setting(k,v)` followed by `load_settings()` yields `v` for `k`
whenever `k` is recognized and `v` parses; rows with unrecognized keys are
ignored by `load_settings`; and a recognized key whose stored value does not
parse as a number leaves that field at its compile-time default. For the four
`f64` keys, "does not parse" additionally requires the value not be one of the
nonfinite forms `inf`/`infinity`/`nan` that `f64::from_str` accepts (those parse
successfully in Rust and store a nonfinite value outside this rational model). -/
theorem settings_roundtrip :
    (∀ (tbl : List (String × String)) (k v : String) (val : SettingVal),
        parseSettingVal k v = some val →
        getSetting (load_settings (save_setting tbl k v)) k = some val)
    ∧ (∀ (s : FairnessSettings) (kv : String × String), keyOf kv.1 = none →
        applySettingRow s kv = s)
    ∧ (∀ (tbl : List (String × String)) (k v : String),
        (∀ kv ∈ tbl, kv.1 ≠ k) → parseSettingVal k v = none →
        (keyUsesF64 k = true → isF64SpecialForm v = false) →
        getSetting (load_settings (save_setting tbl k v)) k
          = getSetting defaultSettings k) := by
  refine ⟨?_, ?_, ?_⟩
  · intro tbl k v val hp
    unfold load_settings
    rw [getSetting_foldl]
    rw [effAux_const hp (save_setting tbl k v) none (save_all_k tbl k v)]
    rw [if_pos (save_any_k tbl k v)]
  · intro s kv h
    unfold applySettingRow
    rw [h]
  · intro tbl k v hall hp _
    have hnone : tbl.any (fun e => e.1 == k) = false := by
      simp only [List.any_eq_false]
      intro x hx
      simpa using hall x hx
    have hsave : save_setting tbl k v = tbl ++ [(k, v)] := by
      unfold save_setting
      rw [if_neg (by simp [hnone])]
    unfold load_settings
    rw [getSetting_foldl, hsave]
    have happ : effAux (tbl ++ [(k, v)]) k none
        = effAux [(k, v)] k (effAux tbl k none) := by
      unfold effAux
      rw [List.foldl_append]
    rw [happ, effAux_no_k k tbl none hall]
    have hlast : effAux [(k, v)] k none = none := by
      show (if k == k then
          match parseSettingVal k v with
          | some val => some val
          | none => none
        else none) = none
      rw [hp]
      simp
    rw [hlast]

/-- Witness for `settings_roundtrip`: save `fairness_window_minutes = 45` and
read it back; an unrecognized key is a no-op; an overflowing
`fairness_window_minutes` (rejected by `i64::from_str`) keeps the default. -/
theorem settings_roundtrip_spot :
    getSetting (load_settings (save_setting [] "fairness_window_minutes" "45"))
        "fairness_window_minutes" = some (.intVal 45)
    ∧ applySettingRow defaultSettings ("totally_bogus_key", "999") = defaultSettings
    ∧ getSetting (load_settings
          (save_setting [] "fairness_window_minutes" "99999999999999999999"))
        "fairness_window_minutes" = getSetting defaultSettings "fairness_window_minutes" :=
  ⟨settings_roundtrip.1 [] "fairness_window_minutes" "45" (.intVal 45) (by decide),
   settings_roundtrip.2.1 defaultSettings ("totally_bogus_key", "999") (by decide),
   settings_roundtrip.2.2 [] "fairness_window_minutes" "99999999999999999999"
     (by intro kv hkv; exact absurd hkv (by simp)) (by decide) (by decide)⟩

/- ### Reservation tick (`src/scheduler/reservation.rs`) -/

/-- The reservation lifecycle states. -/
inductive RStatus where
  | pending
  | approved
  | active
  | completed
  | rejected
  | cancelled
deriving Repr, DecidableEq

/-- A row of the `reservations` table (columns the tick touches; timestamps as
`Nat`, see the header note on lexicographic timestamp strings). -/
structure ResRow where
  id : String
  userId : String
  status : RStatus
  startTime : Nat
  endTime : Nat
  adminNote : String
deriving Repr, DecidableEq

/-- The state `tick_reservations` operates on: the reservation rows and the
scheduler's in-memory active-reservation cache. -/
structure TickState where
  rows : List ResRow
  cache : Option ActiveReservation
deriving Repr, DecidableEq

/-- Step 1 of the tick on one row:
`UPDATE .. SET status='completed' WHERE status='active' AND end_time <= now`. -/
def step1Row (now : Nat) (r : ResRow) : ResRow :=
  if r.status = RStatus.active ∧ r.endTime ≤ now then
    { r with status := RStatus.completed }
  else r

/-- The note step 3 writes. -/
def autoCancelNote : String := "Auto-cancelled: start time passed without approval"

/-- Step 3 of the tick on one row: `UPDATE .. SET status='cancelled',
admin_note=.. WHERE status='pending' AND start_time <= now`. -/
def step3Row (now : Nat) (r : ResRow) : ResRow :=
  if r.status = RStatus.pending ∧ r.startTime ≤ now then
    { r with status := RStatus.cancelled, adminNote := autoCancelNote }
  else r

/-- Step 2's activation on one row: `UPDATE .. SET status='active' WHERE id=?`. -/
def activateRow (cid : String) (r : ResRow) : ResRow :=
  if r.id = cid then { r with status := RStatus.active } else r

/-- One comparison step of `ORDER BY start_time ASC LIMIT 1` (keep the earlier
table row among equal start times). -/
def minStartStep (acc : Option ResRow) (r : ResRow) : Option ResRow :=
  match acc with
  | none => some r
  | some b => if r.startTime < b.startTime then some r else some b

/-- The activation query of the tick:
`SELECT .. WHERE status='approved' AND start_time <= ? ORDER BY start_time ASC
LIMIT 1`. Note the query has NO condition on `end_time`. -/
def earliestApprovedDue (rows : List ResRow) (now : Nat) : Option ResRow :=
  (rows.filter (fun r =>
    decide (r.status = RStatus.approved ∧ r.startTime ≤ now))).foldl minStartStep none

/-- The cache after step 1: cleared exactly when step 1 completed some row. -/
def tickCache1 (s : TickState) (now : Nat) : Option ActiveReservation :=
  if ∃ r ∈ s.rows, r.status = RStatus.active ∧ r.endTime ≤ now then none else s.cache

/-- `tick_reservations`: complete expired active rows (clearing the cache if any
matched), then — only when the cache is empty — activate the earliest approved
row whose `start_time <= now` (populating the cache from it, with the display
name of the users join omitted as `none`), then auto-cancel stale pending rows. -/
def tick (s : TickState) (now : Nat) : TickState :=
  let rows1 := s.rows.map (step1Row now)
  let step2 : List ResRow × Option ActiveReservation :=
    match tickCache1 s now with
    | none =>
        match earliestApprovedDue rows1 now with
        | some c => (rows1.map (activateRow c.id), some ⟨c.id, c.userId, c.endTime, none⟩)
        | none => (rows1, none)
    | some a => (rows1, some a)
  { rows := step2.1.map (step3Row now), cache := step2.2 }

lemma tick_eq_activate {s : TickState} {now : Nat} {c : ResRow}
    (h1 : tickCache1 s now = none)
    (hcand : earliestApprovedDue (s.rows.map (step1Row now)) now = some c) :
    tick s now =
      { rows := ((s.rows.map (step1Row now)).map (activateRow c.id)).map (step3Row now),
        cache := some ⟨c.id, c.userId, c.endTime, none⟩ } := by
  unfold tick
  rw [h1]
  simp only [hcand]

lemma tick_eq_noact {s : TickState} {now : Nat}
    (h1 : tickCache1 s now = none)
    (hcand : earliestApprovedDue (s.rows.map (step1Row now)) now = none) :
    tick s now =
      { rows := (s.rows.map (step1Row now)).map (step3Row now), cache := none } := by
  unfold tick
  rw [h1]
  simp only [hcand]

lemma tick_eq_skip {s : TickState} {now : Nat} {a : ActiveReservation}
    (h1 : tickCache1 s now = some a) :
    tick s now =
      { rows := (s.rows.map (step1Row now)).map (step3Row now), cache := some a } := by
  unfold tick
  rw [h1]

lemma tickCache1_none_of_cache_none {s : TickState} {now : Nat}
    (hc : s.cache = none) : tickCache1 s now = none := by
  unfold tickCache1
  rw [hc, ite_self]

/-- C1 counterexample: a single approved reservation whose `end_time` (1) has
long passed (`now` = 5) and an empty cache; the tick nevertheless sets it to
`active` and installs it in the cache. -/
theorem tick_activates_expired_approved :
    (⟨"r1", "alice", RStatus.approved, 0, 1, ""⟩ : ResRow).endTime ≤ 5
    ∧ (tick ⟨[⟨"r1", "alice", RStatus.approved, 0, 1, ""⟩], none⟩ 5).rows
        = [⟨"r1", "alice", RStatus.active, 0, 1, ""⟩]
    ∧ (tick ⟨[⟨"r1", "alice", RStatus.approved, 0, 1, ""⟩], none⟩ 5).cache
        = some ⟨"r1", "alice", 1, none⟩ := by decide

/-- C2 counterexample: on the same state, the second tick (same `now`) completes
the row the first tick activated, so the row statuses after `tick; tick` differ
from those after a single `tick`. -/
theorem tick_not_idempotent :
    (tick (tick ⟨[⟨"r1", "alice", RStatus.approved, 0, 1, ""⟩], none⟩ 5) 5).rows.map
        (fun r => r.status)
      ≠ (tick ⟨[⟨"r1", "alice", RStatus.approved, 0, 1, ""⟩], none⟩ 5).rows.map
        (fun r => r.status) := by decide

lemma filter_map_invariant {g : ResRow → ResRow} {p : ResRow → Bool}
    (h1 : ∀ r, p (g r) = p r) (h2 : ∀ r, p r = true → g r = r) :
    ∀ rows : List ResRow, (rows.map g).filter p = rows.filter p := by
  intro rows
  induction rows with
  | nil => rfl
  | cons r rest ih =>
      cases hp : p r with
      | true =>
          have hg : g r = r := h2 r hp
          simp only [List.map_cons, List.filter_cons, h1 r, hp, hg, ih]
      | false =>
          simp only [List.map_cons, List.filter_cons, h1 r, hp, ih]
          simp

lemma approvedDueP_step1 (now : Nat) (r : ResRow) :
    (fun r => decide (r.status = RStatus.approved ∧ r.startTime ≤ now)) (step1Row now r)
      = (fun r => decide (r.status = RStatus.approved ∧ r.startTime ≤ now)) r := by
  unfold step1Row
  by_cases h : r.status = RStatus.active ∧ r.endTime ≤ now
  · rw [if_pos h]
    simp [h.1]
  · rw [if_neg h]

lemma approvedDueP_step3 (now : Nat) (r : ResRow) :
    (fun r => decide (r.status = RStatus.approved ∧ r.startTime ≤ now)) (step3Row now r)
      = (fun r => decide (r.status = RStatus.approved ∧ r.startTime ≤ now)) r := by
  unfold step3Row
  by_cases h : r.status = RStatus.pending ∧ r.startTime ≤ now
  · rw [if_pos h]
    simp [h.1]
  · rw [if_neg h]

lemma step1Row_of_approvedDue {now : Nat} {r : ResRow}
    (h : decide (r.status = RStatus.approved ∧ r.startTime ≤ now) = true) :
    step1Row now r = r := by
  have ha := (of_decide_eq_true h).1
  unfold step1Row
  rw [if_neg (by simp [ha])]

lemma step3Row_of_approvedDue {now : Nat} {r : ResRow}
    (h : decide (r.status = RStatus.approved ∧ r.startTime ≤ now) = true) :
    step3Row now r = r := by
  have ha := (of_decide_eq_true h).1
  unfold step3Row
  rw [if_neg (by simp [ha])]

lemma earliestApprovedDue_map_step1 (rows : List ResRow) (now : Nat) :
    earliestApprovedDue (rows.map (step1Row now)) now = earliestApprovedDue rows now := by
  unfold earliestApprovedDue
  rw [filter_map_invariant (approvedDueP_step1 now)
    (fun r h => step1Row_of_approvedDue h) rows]

lemma earliestApprovedDue_map_step3 (rows : List ResRow) (now : Nat) :
    earliestApprovedDue (rows.map (step3Row now)) now = earliestApprovedDue rows now := by
  unfold earliestApprovedDue
  rw [filter_map_invariant (approvedDueP_step3 now)
    (fun r h => step3Row_of_approvedDue h) rows]

lemma minFold_spec (l : List ResRow) :
    ∀ b : ResRow, ∃ r, l.foldl minStartStep (some b) = some r
      ∧ (r = b ∨ r ∈ l)
      ∧ r.startTime ≤ b.startTime
      ∧ ∀ x ∈ l, r.startTime ≤ x.startTime := by
  induction l with
  | nil =>
      intro b
      exact ⟨b, rfl, Or.inl rfl, le_refl _, fun x hx => absurd hx (by simp)⟩
  | cons m rest ih =>
      intro b
      by_cases hc : m.startTime < b.startTime
      · obtain ⟨r, hr, hmem, hb, hall⟩ := ih m
        have hstep : (m :: rest).foldl minStartStep (some b)
            = rest.foldl minStartStep (some m) := by
          simp [List.foldl_cons, minStartStep, hc]
        refine ⟨r, by rw [hstep]; exact hr, ?_, by omega, ?_⟩
        · rcases hmem with h | h
          · exact Or.inr (by simp [h])
          · exact Or.inr (by simp [h])
        · intro x hx
          rcases List.mem_cons.mp hx with h | h
          · rw [h]; exact hb
          · exact hall x h
      · obtain ⟨r, hr, hmem, hb, hall⟩ := ih b
        have hstep : (m :: rest).foldl minStartStep (some b)
            = rest.foldl minStartStep (some b) := by
          simp [List.foldl_cons, minStartStep, hc]
        refine ⟨r, by rw [hstep]; exact hr, ?_, hb, ?_⟩
        · rcases hmem with h | h
          · exact Or.inl h
          · exact Or.inr (by simp [h])
        · intro x hx
          rcases List.mem_cons.mp hx with h | h
          · rw [h]; omega
          · exact hall x h

lemma earliestApprovedDue_spec {rows : List ResRow} {now : Nat} {c : ResRow}
    (h : earliestApprovedDue rows now = some c) :
    c ∈ rows ∧ c.status = RStatus.approved ∧ c.startTime ≤ now
    ∧ ∀ x ∈ rows, x.status = RStatus.approved → x.startTime ≤ now →
        c.startTime ≤ x.startTime := by
  unfold earliestApprovedDue at h
  set fl := rows.filter (fun r =>
    decide (r.status = RStatus.approved ∧ r.startTime ≤ now)) with hfl
  have hofl : ∀ x ∈ fl, x ∈ rows ∧ x.status = RStatus.approved ∧ x.startTime ≤ now := by
    intro x hx
    rw [hfl] at hx
    have := List.mem_filter.mp hx
    exact ⟨this.1, of_decide_eq_true this.2⟩
  have hinfl : ∀ x ∈ rows, x.status = RStatus.approved → x.startTime ≤ now → x ∈ fl := by
    intro x hx h1 h2
    rw [hfl]
    exact List.mem_filter.mpr ⟨hx, by simp [h1, h2]⟩
  cases hcase : fl with
  | nil => rw [hcase] at h; exact absurd h (by simp [List.foldl])
  | cons b rest =>
      rw [hcase] at h
      have hstep : (b :: rest).foldl minStartStep none
          = rest.foldl minStartStep (some b) := rfl
      rw [hstep] at h
      obtain ⟨r, hr, hmem, hb, hall⟩ := minFold_spec rest b
      rw [hr] at h
      have hrc : r = c := by simpa using h
      subst hrc
      have hrfl : r ∈ fl := by
        rw [hcase]
        rcases hmem with hh | hh
        · simp [hh]
        · simp [hh]
      refine ⟨(hofl r hrfl).1, (hofl r hrfl).2.1, (hofl r hrfl).2.2, ?_⟩
      intro x hx h1 h2
      have hxfl := hinfl x hx h1 h2
      rw [hcase] at hxfl
      rcases List.mem_cons.mp hxfl with hh | hh
      · rw [hh]; exact hb
      · exact hall x hh

lemma earliestApprovedDue_none {rows : List ResRow} {now : Nat}
    (h : earliestApprovedDue rows now = none) :
    ∀ x ∈ rows, ¬(x.status = RStatus.approved ∧ x.startTime ≤ now) := by
  intro x hx hcon
  unfold earliestApprovedDue at h
  have hxfl : x ∈ rows.filter (fun r =>
      decide (r.status = RStatus.approved ∧ r.startTime ≤ now)) :=
    List.mem_filter.mpr ⟨hx, by simp [hcon.1, hcon.2]⟩
  cases hcase : rows.filter (fun r =>
      decide (r.status = RStatus.approved ∧ r.startTime ≤ now)) with
  | nil => rw [hcase] at hxfl; exact absurd hxfl (by simp)
  | cons b rest =>
      rw [hcase] at h
      have hstep : (b :: rest).foldl minStartStep none
          = rest.foldl minStartStep (some b) := rfl
      rw [hstep] at h
      obtain ⟨r, hr, _, _, _⟩ := minFold_spec rest b
      rw [hr] at h
      exact absurd h (by simp)

lemma map_id_of {α : Type} (l : List α) (f : α → α) (h : ∀ r ∈ l, f r = r) :
    l.map f = l := by
  induction l with
  | nil => rfl
  | cons r rest ih =>
      simp only [List.map_cons, h r (by simp)]
      rw [ih (fun x hx => h x (by simp [hx]))]

lemma step1Row_id (now : Nat) (r : ResRow) : (step1Row now r).id = r.id := by
  unfold step1Row
  by_cases h : r.status = RStatus.active ∧ r.endTime ≤ now
  · rw [if_pos h]
  · rw [if_neg h]

lemma step3Row_status_active {now : Nat} {r : ResRow}
    (h : (step3Row now r).status = RStatus.active) :
    step3Row now r = r ∧ r.status = RStatus.active := by
  unfold step3Row at h ⊢
  by_cases hp : r.status = RStatus.pending ∧ r.startTime ≤ now
  · rw [if_pos hp] at h
    exact absurd h (by simp)
  · rw [if_neg hp] at h ⊢
    exact ⟨rfl, h⟩

lemma step1Row_status_active {now : Nat} {r : ResRow}
    (h : (step1Row now r).status = RStatus.active) :
    step1Row now r = r ∧ r.status = RStatus.active ∧ ¬ r.endTime ≤ now := by
  unfold step1Row at h ⊢
  by_cases hp : r.status = RStatus.active ∧ r.endTime ≤ now
  · rw [if_pos hp] at h
    exact absurd h (by simp)
  · rw [if_neg hp] at h ⊢
    refine ⟨rfl, h, ?_⟩
    intro hend
    exact hp ⟨h, hend⟩

/-- C1 (amended): when the cache is empty, the tick activates (sets to `active`
and installs in the cache) exactly the earliest approved row with
`start_time <= now`; the query places NO condition on `end_time`, so an approved
row whose `end_time` has already passed is activated all the same (the
counterexample exhibits this). Every other row only becomes `active` if it
already was. -/
theorem tick_activation_ignores_end_time :
    ∀ (s : TickState) (now : Nat) (c : ResRow),
      s.cache = none →
      earliestApprovedDue s.rows now = some c →
      ((tick s now).cache = some ⟨c.id, c.userId, c.endTime, none⟩
      ∧ c ∈ s.rows ∧ c.status = RStatus.approved ∧ c.startTime ≤ now
      ∧ (∀ x ∈ s.rows, x.status = RStatus.approved → x.startTime ≤ now →
          c.startTime ≤ x.startTime)
      ∧ (tick s now).rows.length = s.rows.length
      ∧ (∀ i r, s.rows.get? i = some r → r.id = c.id → r.status = RStatus.approved →
          ∃ r2, (tick s now).rows.get? i = some r2 ∧ r2.status = RStatus.active
            ∧ r2.endTime = r.endTime)
      ∧ (∀ i r r2, s.rows.get? i = some r → (tick s now).rows.get? i = some r2 →
          r2.status = RStatus.active →
          r.status = RStatus.active ∨ r.id = c.id)) := by
  intro s now c hc hcand
  have h1 : tickCache1 s now = none := tickCache1_none_of_cache_none hc
  have hcand1 : earliestApprovedDue (s.rows.map (step1Row now)) now = some c := by
    rw [earliestApprovedDue_map_step1]
    exact hcand
  have heq := tick_eq_activate h1 hcand1
  have hspec := earliestApprovedDue_spec hcand
  refine ⟨by rw [heq], hspec.1, hspec.2.1, hspec.2.2.1, hspec.2.2.2, ?_, ?_, ?_⟩
  · rw [heq]
    simp
  · intro i r hget hid hst
    have hf1 : step1Row now r = r := by
      unfold step1Row
      rw [if_neg (by simp [hst])]
    have hfa : activateRow c.id (step1Row now r) = { r with status := RStatus.active } := by
      rw [hf1]
      unfold activateRow
      rw [if_pos hid]
    have hf3 : step3Row now { r with status := RStatus.active }
        = { r with status := RStatus.active } := by
      unfold step3Row
      rw [if_neg (by simp)]
    refine ⟨{ r with status := RStatus.active }, ?_, rfl, rfl⟩
    rw [heq]
    simp only [List.get?_map, hget, Option.map_some', hfa, hf3]
  · intro i r r2 hget hget2 hact
    rw [heq] at hget2
    simp only [List.get?_map, hget, Option.map_some'] at hget2
    have hr2 : step3Row now (activateRow c.id (step1Row now r)) = r2 := by
      simpa using hget2
    rw [← hr2] at hact
    obtain ⟨-, hact2⟩ := step3Row_status_active hact
    by_cases hid : (step1Row now r).id = c.id
    · right
      rw [← step1Row_id now r]
      exact hid
    · left
      unfold activateRow at hact2
      rw [if_neg hid] at hact2
      exact (step1Row_status_active hact2).2.1

lemma step1Row_endTime (now : Nat) (r : ResRow) :
    (step1Row now r).endTime = r.endTime := by
  unfold step1Row
  by_cases h : r.status = RStatus.active ∧ r.endTime ≤ now
  · rw [if_pos h]
  · rw [if_neg h]

lemma step3Row_status_pending {now : Nat} {r : ResRow}
    (h : (step3Row now r).status = RStatus.pending) :
    step3Row now r = r ∧ ¬ r.startTime ≤ now := by
  unfold step3Row at h ⊢
  by_cases hp : r.status = RStatus.pending ∧ r.startTime ≤ now
  · rw [if_pos hp] at h
    exact absurd h (by simp)
  · rw [if_neg hp] at h ⊢
    exact ⟨rfl, fun hd => hp ⟨h, hd⟩⟩

lemma tick_no_expired_active {s : TickState} {now : Nat}
    (hnd : (s.rows.map (fun r => r.id)).Nodup)
    (happr : ∀ r ∈ s.rows, r.status = RStatus.approved → r.startTime ≤ now →
        now < r.endTime) :
    ∀ r ∈ (tick s now).rows, r.status = RStatus.active → now < r.endTime := by
  have base : ∀ r ∈ (s.rows.map (step1Row now)).map (step3Row now),
      r.status = RStatus.active → now < r.endTime := by
    intro r hr hact
    obtain ⟨x, hx, hrx⟩ := List.mem_map.mp hr
    obtain ⟨r0, hr0, hxr0⟩ := List.mem_map.mp hx
    subst hrx hxr0
    obtain ⟨he3, hact1⟩ := step3Row_status_active hact
    rw [he3]
    obtain ⟨he1, _, hend⟩ := step1Row_status_active hact1
    rw [he1]
    omega
  cases hc1 : tickCache1 s now with
  | some a =>
      rw [tick_eq_skip hc1]
      exact base
  | none =>
      cases hcand : earliestApprovedDue (s.rows.map (step1Row now)) now with
      | none =>
          rw [tick_eq_noact hc1 hcand]
          exact base
      | some c =>
          rw [tick_eq_activate hc1 hcand]
          intro r hr hact
          obtain ⟨x, hx, hrx⟩ := List.mem_map.mp hr
          obtain ⟨y, hy, hxy⟩ := List.mem_map.mp hx
          obtain ⟨r0, hr0, hyr0⟩ := List.mem_map.mp hy
          subst hrx hxy hyr0
          obtain ⟨he3, hact1⟩ := step3Row_status_active hact
          rw [he3]
          by_cases hid : (step1Row now r0).id = c.id
          · have hcs : earliestApprovedDue s.rows now = some c := by
              rw [← earliestApprovedDue_map_step1 s.rows now]
              exact hcand
            have hcspec := earliestApprovedDue_spec hcs
            have hcend : now < c.endTime :=
              happr c hcspec.1 hcspec.2.1 hcspec.2.2.1
            have hr0c : r0 = c := by
              refine List.inj_on_of_nodup_map hnd hr0 hcspec.1 ?_
              rw [← step1Row_id now r0]
              exact hid
            subst hr0c
            unfold activateRow
            rw [if_pos hid]
            simp only [step1Row_endTime]
            exact hcend
          · unfold activateRow
            rw [if_neg hid]
            unfold activateRow at hact1
            rw [if_neg hid] at hact1
            obtain ⟨he1, _, hend⟩ := step1Row_status_active hact1
            rw [he1]
            omega

lemma tick_no_stale_pending (s : TickState) (now : Nat) :
    ∀ r ∈ (tick s now).rows, r.status = RStatus.pending → ¬ r.startTime ≤ now := by
  have base : ∀ (mid : List ResRow), ∀ r ∈ mid.map (step3Row now),
      r.status = RStatus.pending → ¬ r.startTime ≤ now := by
    intro mid r hr hp
    obtain ⟨x, hx, hrx⟩ := List.mem_map.mp hr
    subst hrx
    obtain ⟨he3, hnd⟩ := step3Row_status_pending hp
    rw [he3]
    exact hnd
  cases hc1 : tickCache1 s now with
  | some a =>
      rw [tick_eq_skip hc1]
      exact base _
  | none =>
      cases hcand : earliestApprovedDue (s.rows.map (step1Row now)) now with
      | none =>
          rw [tick_eq_noact hc1 hcand]
          exact base _
      | some c =>
          rw [tick_eq_activate hc1 hcand]
          exact base _

lemma tick_cache_none_no_candidate {s : TickState} {now : Nat}
    (h : (tick s now).cache = none) :
    earliestApprovedDue (tick s now).rows now = none := by
  cases hc1 : tickCache1 s now with
  | some a =>
      rw [tick_eq_skip hc1] at h
      exact absurd h (by simp)
  | none =>
      cases hcand : earliestApprovedDue (s.rows.map (step1Row now)) now with
      | some c =>
          rw [tick_eq_activate hc1 hcand] at h
          exact absurd h (by simp)
      | none =>
          rw [tick_eq_noact hc1 hcand]
          show earliestApprovedDue ((s.rows.map (step1Row now)).map (step3Row now)) now = none
          rw [earliestApprovedDue_map_step3]
          exact hcand

/-- C2 (amended): `tick(); tick()` leaves the same reservation rows as a single
`tick()` on every database state (with the primary-key-unique row ids) in which
no approved row due for activation (`start_time <= now`) has `end_time <= now`.
In general the second tick may additionally complete a reservation the first
tick activated despite its `end_time` having passed (see the counterexample), so
unconditional idempotence fails. -/
theorem tick_idempotent_without_expired_approved :
    ∀ (s : TickState) (now : Nat),
      (s.rows.map (fun r => r.id)).Nodup →
      (∀ r ∈ s.rows, r.status = RStatus.approved → r.startTime ≤ now →
          now < r.endTime) →
      (tick (tick s now) now).rows = (tick s now).rows := by
  intro s now hnd happr
  have hA := tick_no_expired_active hnd happr
  have hB := tick_no_stale_pending s now
  have hc1 : tickCache1 (tick s now) now = (tick s now).cache := by
    unfold tickCache1
    rw [if_neg]
    intro ⟨r, hr, hact, hend⟩
    have := hA r hr hact
    omega
  have hid1 : (tick s now).rows.map (step1Row now) = (tick s now).rows := by
    refine map_id_of _ _ (fun r hr => ?_)
    unfold step1Row
    rw [if_neg]
    intro ⟨hact, hend⟩
    have := hA r hr hact
    omega
  have hid3 : (tick s now).rows.map (step3Row now) = (tick s now).rows := by
    refine map_id_of _ _ (fun r hr => ?_)
    unfold step3Row
    rw [if_neg]
    intro ⟨hp, hd⟩
    exact hB r hr hp hd
  cases hcc : (tick s now).cache with
  | some a =>
      rw [tick_eq_skip (by rw [hc1, hcc])]
      show ((tick s now).rows.map (step1Row now)).map (step3Row now) = (tick s now).rows
      rw [hid1, hid3]
  | none =>
      have hnocand : earliestApprovedDue ((tick s now).rows.map (step1Row now)) now
          = none := by
        rw [hid1]
        exact tick_cache_none_no_candidate hcc
      rw [tick_eq_noact (by rw [hc1, hcc]) hnocand]
      show ((tick s now).rows.map (step1Row now)).map (step3Row now) = (tick s now).rows
      rw [hid1, hid3]

/-- Witness for `tick_activation_ignores_end_time`: one approved due row with a
future end gets activated and cached. -/
theorem tick_activation_ignores_end_time_spot :
    (tick ⟨[⟨"r1", "alice", RStatus.approved, 0, 9, ""⟩], none⟩ 5).cache
      = some ⟨"r1", "alice", 9, none⟩ :=
  (tick_activation_ignores_end_time ⟨[⟨"r1", "alice", RStatus.approved, 0, 9, ""⟩], none⟩ 5
    ⟨"r1", "alice", RStatus.approved, 0, 9, ""⟩ rfl (by decide)).1

/-- Witness for `tick_idempotent_without_expired_approved` on a state with an
expired active row, a due approved row with a future end, and a stale pending
row. -/
theorem tick_idempotent_without_expired_approved_spot :
    (tick (tick ⟨[⟨"r1", "u1", RStatus.active, 0, 3, ""⟩,
                  ⟨"r2", "u2", RStatus.approved, 1, 9, ""⟩,
                  ⟨"r3", "u3", RStatus.pending, 2, 9, ""⟩], none⟩ 5) 5).rows
      = (tick ⟨[⟨"r1", "u1", RStatus.active, 0, 3, ""⟩,
                ⟨"r2", "u2", RStatus.approved, 1, 9, ""⟩,
                ⟨"r3", "u3", RStatus.pending, 2, 9, ""⟩], none⟩ 5).rows :=
  tick_idempotent_without_expired_approved
    ⟨[⟨"r1", "u1", RStatus.active, 0, 3, ""⟩,
      ⟨"r2", "u2", RStatus.approved, 1, 9, ""⟩,
      ⟨"r3", "u3", RStatus.pending, 2, 9, ""⟩], none⟩ 5
    (by decide) (by decide)
